import Mathlib

/-!
# A verification development for `queue.c`

The queue of `queue.c` is a singly linked list of heap-allocated elements
(`list_ele_t`), each owning a C string, together with a header (`queue_t`)
holding `head`, `tail` and `size`.

The embedding is shallow: memory is a partial map from addresses to elements,
a pointer is `Option Ptr` (`none` is `NULL`), every C function is a Lean
function that threads the heap explicitly, and every `while` loop is a
function recursing on a fuel argument.  A result `none` means that the C
program has no defined result there: a `NULL` or dangling pointer was
dereferenced, a buffer was accessed out of bounds, or the fuel ran out.
-/

namespace Queue

/-! ## Data model -/

/-- An address of a `list_ele_t` object. `NULL` is `Option.none`. -/
abbrev Ptr := Nat

/-- A C string's text: its bytes before the terminator. -/
abbrev Text := List Nat

/-- The element `list_ele_t` of `queue.h`: the owned string and the link. -/
structure list_ele_t where
  value : Text
  next : Option Ptr
deriving DecidableEq

/-- Modelled from the spec: `queue.h` is not among the sources; the container
"holds a reference to the first element (head), a reference to the last element
(tail), and an integer element count", the count being the field `size` that
`queue.c` reads and writes. -/
structure queue_t where
  head : Option Ptr
  tail : Option Ptr
  size : Int
deriving DecidableEq

/-- The heap of list elements: `h p = none` when no element is allocated at `p`. -/
abbrev Heap := Ptr → Option list_ele_t

/-- The heap after writing element `n` at address `p`. -/
def heap_write (h : Heap) (p : Ptr) (n : list_ele_t) : Heap :=
  fun x => if x = p then some n else h x

/-- The heap after `free` of the element at `p`. -/
def heap_free (h : Heap) (p : Ptr) : Heap :=
  fun x => if x = p then none else h x

/-- The read `p->value`; undefined when `p` is `NULL` or not allocated. -/
def load_value (h : Heap) (p : Option Ptr) : Option Text :=
  match p with
  | none => none
  | some a => (h a).map (fun n => n.value)

/-- The read `p->next`; undefined when `p` is `NULL` or not allocated. -/
def load_next (h : Heap) (p : Option Ptr) : Option (Option Ptr) :=
  match p with
  | none => none
  | some a => (h a).map (fun n => n.next)

/-- The write `p->next = v`; undefined when `p` is `NULL` or not allocated. -/
def store_next (h : Heap) (p : Option Ptr) (v : Option Ptr) : Option Heap :=
  match p with
  | none => none
  | some a =>
    match h a with
    | none => none
    | some n => some (heap_write h a { n with next := v })

/-! ## The C library functions used by `queue.c` -/

/-- The value of `tolower` on a byte in the C locale. -/
def tolower (c : Nat) : Nat := if 65 ≤ c ∧ c ≤ 90 then c + 32 else c

/-- The library function `strcasecmp`: the difference of the first pair of
bytes that differ after `tolower`, and `0` when the strings end together. The
end of a text reads as the terminator `0`, and a byte `0` inside a list ends
the string as the terminator does. -/
def strcasecmp : Text → Text → Int
  | [], [] => 0
  | [], b :: _ => 0 - (tolower b : Int)
  | a :: _, [] => (tolower a : Int) - 0
  | a :: as, b :: bs =>
    if tolower a = tolower b then
      (if a = 0 then 0 else strcasecmp as bs)
    else (tolower a : Int) - (tolower b : Int)

/-- The library function `strlen`. -/
def strlen (s : Text) : Nat := s.length

/-- The largest value of `size_t` (64 bits). -/
def SIZE_MAX : Nat := 18446744073709551615

/-- The bytes of the object a string is stored in: the text and its terminator. -/
def c_str (s : Text) : List Nat := s ++ [0]

/-- The library function `memcpy` of `n` bytes from the object `src` to the
start of the object `dst`; undefined when either object is shorter than `n`. -/
def memcpy (dst src : List Nat) (n : Nat) : Option (List Nat) :=
  if n ≤ src.length ∧ n ≤ dst.length then some (src.take n ++ dst.drop n) else none

/-- The write `sp[i] = c`; undefined when `i` is outside the object `sp`. -/
def store_byte (sp : List Nat) (i : Nat) (c : Nat) : Option (List Nat) :=
  if i < sp.length then some (sp.set i c) else none

/-! ## The functions of `queue.c` -/

/-- The function `q_new`; `alloc` tells whether `malloc` succeeded. -/
def q_new (alloc : Bool) : Option queue_t :=
  if alloc then some { head := none, tail := none, size := 0 } else none

/-- The loop of `q_free`, freeing the elements from `head` on. -/
def q_free_loop : Nat → Heap → Option Ptr → Option (Heap × Option Ptr)
  | 0, _, _ => none
  | fuel + 1, h, head =>
    match head with
    | none => some (h, none)
    | some a =>
      match load_next h head with
      | none => none
      | some tmp => q_free_loop fuel (heap_free h a) tmp

/-- The function `q_free`: the heap afterwards and what is left of the queue
(nothing). -/
def q_free (fuel : Nat) (h : Heap) (q : Option queue_t) : Option (Heap × Option queue_t) :=
  match q with
  | none => some (h, none)
  | some q =>
    match q_free_loop fuel h q.head with
    | none => none
    | some (h1, _) => some (h1, none)

/-- The function `q_insert_head`. `newh` is what `malloc` returns for the
element (`none` when it fails) and `value_ok` tells whether the `malloc` of the
string succeeds. The result is the heap, the queue and the returned `bool`. -/
def q_insert_head (h : Heap) (q : Option queue_t) (s : Text) (newh : Option Ptr)
    (value_ok : Bool) : Heap × Option queue_t × Bool :=
  match q with
  | none => (h, none, false)
  | some q =>
    match newh with
    | none => (h, some q, false)
    | some p =>
      if !value_ok then (h, some q, false)
      else
        let h1 := heap_write h p { value := s, next := q.head }
        let q1 := { q with head := some p }
        let q2 := if q1.tail = none then { q1 with tail := some p } else q1
        (h1, some { q2 with size := q2.size + 1 }, true)

/-- The function `q_insert_tail`, with the same allocation arguments as
`q_insert_head`. Undefined when `q->tail` is not an allocated element. -/
def q_insert_tail (h : Heap) (q : Option queue_t) (s : Text) (newt : Option Ptr)
    (value_ok : Bool) : Option (Heap × Option queue_t × Bool) :=
  match q with
  | none => some (h, none, false)
  | some q =>
    match newt with
    | none => some (h, some q, false)
    | some p =>
      if !value_ok then some (h, some q, false)
      else
        let h1 := heap_write h p { value := s, next := none }
        let q1 := { q with size := q.size + 1 }
        if q1.tail = none then
          some (h1, some { q1 with head := some p, tail := some p }, true)
        else
          match store_next h1 q1.tail (some p) with
          | none => none
          | some h2 => some (h2, some { q1 with tail := some p }, true)

/-- The number of bytes `q_remove_head` copies: the value of `bufsize` after
`if (strlen(victim->value) < bufsize) bufsize = strlen(victim->value); else
bufsize--;`, the decrement being that of the unsigned type `size_t`. -/
def remove_copy_len (len bufsize : Nat) : Nat :=
  if len < bufsize then len else (bufsize + SIZE_MAX) % (SIZE_MAX + 1)

/-- The function `q_remove_head`. `sp` is the caller's buffer (`none` for
`NULL`), the list being the bytes of the whole object `sp` points to. The
result is the heap, the queue, the buffer and the returned `bool`. -/
def q_remove_head (h : Heap) (q : Option queue_t) (sp : Option (List Nat)) (bufsize : Nat) :
    Option (Heap × Option queue_t × Option (List Nat) × Bool) :=
  match q with
  | none => some (h, none, sp, false)
  | some q =>
    if q.size = 0 then some (h, some q, sp, false)
    else
      match q.head with
      | none => none
      | some victim =>
        match h victim with
        | none => none
        | some n =>
          let q1 := { q with head := n.next }
          let bufsize1 := remove_copy_len (strlen n.value) bufsize
          let sp1 : Option (Option (List Nat)) :=
            match sp with
            | none => some none
            | some b =>
              match memcpy b (c_str n.value) bufsize1 with
              | none => none
              | some b1 => (store_byte b1 bufsize1 0).map some
          match sp1 with
          | none => none
          | some sp2 =>
            let h1 := heap_free h victim
            let q2 := { q1 with size := q1.size - 1 }
            let q3 := if q2.size = 0 then { q2 with tail := q2.head } else q2
            some (h1, some q3, sp2, true)

/-- The function `q_size`. -/
def q_size (q : Option queue_t) : Int :=
  match q with
  | none => 0
  | some q => q.size

/-- The loop of `q_reverse`: the state is the heap, `prev` and `q->head`. -/
def q_reverse_loop : Nat → Heap → Option Ptr → Option Ptr → Option (Heap × Option Ptr)
  | 0, _, _, _ => none
  | fuel + 1, h, prev, head =>
    match head with
    | none => some (h, prev)
    | some _ =>
      match load_next h head with
      | none => none
      | some next =>
        match store_next h head prev with
        | none => none
        | some h1 => q_reverse_loop fuel h1 head next

/-- The function `q_reverse`. -/
def q_reverse (fuel : Nat) (h : Heap) (q : Option queue_t) : Option (Heap × Option queue_t) :=
  match q with
  | none => some (h, none)
  | some q =>
    if q.size < 2 then some (h, some q)
    else
      let tmp := q.head
      match q_reverse_loop fuel h none q.head with
      | none => none
      | some (h1, prev) => some (h1, some { q with head := prev, tail := tmp })

/-- The loop `while (l1 && l2)` of `merge`: the state is the heap, `temp`,
`l1` and `l2`. -/
def merge_loop : Nat → Heap → Option Ptr → Option Ptr → Option Ptr →
    Option (Heap × Option Ptr × Option Ptr × Option Ptr)
  | 0, _, _, _, _ => none
  | fuel + 1, h, temp, l1, l2 =>
    if l1.isSome && l2.isSome then
      match load_value h l1, load_value h l2 with
      | some v1, some v2 =>
        if strcasecmp v1 v2 < 1 then
          match store_next h temp l1 with
          | none => none
          | some h1 =>
            match load_next h1 temp, load_next h1 l1 with
            | some temp1, some l1n => merge_loop fuel h1 temp1 l1n l2
            | _, _ => none
        else
          match store_next h temp l2 with
          | none => none
          | some h1 =>
            match load_next h1 temp, load_next h1 l2 with
            | some temp1, some l2n => merge_loop fuel h1 temp1 l1 l2n
            | _, _ => none
      | _, _ => none
    else some (h, temp, l1, l2)

/-- The end of `merge`: `if (l1) temp->next = l1; if (l2) temp->next = l2;`. -/
def merge_finish (h : Heap) (temp l1 l2 : Option Ptr) : Option Heap :=
  match (if l1.isSome then store_next h temp l1 else some h) with
  | none => none
  | some h1 => if l2.isSome then store_next h1 temp l2 else some h1

/-- The function `merge`: the heap afterwards and the returned pointer. -/
def merge (fuel : Nat) (h : Heap) (l1 l2 : Option Ptr) : Option (Heap × Option Ptr) :=
  match load_value h l1, load_value h l2 with
  | some v1, some v2 =>
    let first : Option (Option Ptr × Option Ptr × Option Ptr) :=
      if strcasecmp v1 v2 < 1 then (load_next h l1).map (fun n => (l1, n, l2))
      else (load_next h l2).map (fun n => (l2, l1, n))
    match first with
    | none => none
    | some (q, l1a, l2a) =>
      match merge_loop fuel h q l1a l2a with
      | none => none
      | some (h1, temp, l1b, l2b) => (merge_finish h1 temp l1b l2b).map (fun h2 => (h2, q))
  | _, _ => none

/-- The loop `while (fast && fast->next)` of `MergeSortList`: the state is
`slow` and `fast`; the result is `slow` at the exit. -/
def split_walk : Nat → Heap → Option Ptr → Option Ptr → Option (Option Ptr)
  | 0, _, _, _ => none
  | fuel + 1, h, slow, fast =>
    match fast with
    | none => some slow
    | some _ =>
      match load_next h fast with
      | none => none
      | some none => some slow
      | some (some fn) =>
        match load_next h slow, load_next h (some fn) with
        | some slow1, some fast1 => split_walk fuel h slow1 fast1
        | _, _ => none

/-- The function `MergeSortList`: the heap afterwards and the returned pointer. -/
def MergeSortList : Nat → Heap → Option Ptr → Option (Heap × Option Ptr)
  | 0, _, _ => none
  | fuel + 1, h, head =>
    match head with
    | none => some (h, head)
    | some _ =>
      match load_next h head with
      | none => none
      | some none => some (h, head)
      | some (some fst) =>
        match split_walk fuel h head (some fst) with
        | none => none
        | some slow =>
          match load_next h slow with
          | none => none
          | some mid =>
            match store_next h slow none with
            | none => none
            | some h1 =>
              match MergeSortList fuel h1 head with
              | none => none
              | some (h2, l1) =>
                match MergeSortList fuel h2 mid with
                | none => none
                | some (h3, l2) => merge fuel h3 l1 l2

/-- The loop `while (q->tail && q->tail->next)` of `q_sort`: the state is
`q->tail`. -/
def tail_walk : Nat → Heap → Option Ptr → Option (Option Ptr)
  | 0, _, _ => none
  | fuel + 1, h, tail =>
    match tail with
    | none => some tail
    | some _ =>
      match load_next h tail with
      | none => none
      | some none => some tail
      | some (some n) => tail_walk fuel h (some n)

/-- The function `q_sort`. -/
def q_sort (fuel : Nat) (h : Heap) (q : Option queue_t) : Option (Heap × Option queue_t) :=
  match q with
  | none => some (h, none)
  | some q =>
    if q.head = none then some (h, some q)
    else if q.head = q.tail then some (h, some q)
    else
      match MergeSortList fuel h q.head with
      | none => none
      | some (h1, hd) =>
        match tail_walk fuel h1 hd with
        | none => none
        | some tl => some (h1, some { q with head := hd, tail := tl })

/-! ## Reading a queue -/

/-- The chain of `l`: the elements at the addresses `l`, in this order, are
what following `next` from `p` visits before it arrives at `e`. -/
def lseg (h : Heap) : Option Ptr → List Ptr → Option Ptr → Prop
  | p, [], e => p = e
  | p, a :: as, e =>
    p = some a ∧
      match h a with
      | none => False
      | some n => lseg h n.next as e

/-- The text stored at address `a` (empty when nothing is allocated there). -/
def value_of (h : Heap) (a : Ptr) : Text :=
  match h a with
  | none => []
  | some n => n.value

/-- The data-model invariant of a queue whose elements are, from head to
tail, at the addresses `l`: the chain from `head` visits `l` and ends with an
element without `next`, `tail` is the last of them, and `size` counts them. -/
def queue_inv (h : Heap) (q : queue_t) (l : List Ptr) : Prop :=
  lseg h q.head l none ∧ q.tail = l.getLast? ∧ q.size = (l.length : Int)

instance lseg_decidable (h : Heap) (e : Option Ptr) :
    ∀ (l : List Ptr) (p : Option Ptr), Decidable (lseg h p l e)
  | [], p => inferInstanceAs (Decidable (p = e))
  | a :: as, p =>
    match hn : h a with
    | none => isFalse (fun hc => by simp only [lseg, hn] at hc; exact hc.2)
    | some n =>
      match lseg_decidable h e as n.next with
      | isTrue ht =>
        if hp : p = some a then isTrue (by simp only [lseg, hn]; exact ⟨hp, ht⟩)
        else isFalse (fun hc => by simp only [lseg] at hc; exact hp hc.1)
      | isFalse hf => isFalse (fun hc => by simp only [lseg, hn] at hc; exact hf hc.2)

instance queue_inv_decidable (h : Heap) (q : queue_t) (l : List Ptr) :
    Decidable (queue_inv h q l) := by
  unfold queue_inv; infer_instance

/-- The texts read from `p` following `next` until `NULL`. -/
def chain_values : Nat → Heap → Option Ptr → Option (List Text)
  | 0, _, _ => none
  | _ + 1, _, none => some []
  | fuel + 1, h, some a =>
    match h a with
    | none => none
    | some n => (chain_values fuel h n.next).map (fun vs => n.value :: vs)

/-- The order of `q_sort` on elements: `strcasecmp(a->value, b->value) < 1`. -/
def ele_le (h : Heap) (a b : Ptr) : Bool :=
  decide (strcasecmp (value_of h a) (value_of h b) < 1)

/-- The text of a string literal as bytes. -/
def text (s : String) : Text := s.toList.map Char.toNat

/-- The empty heap. -/
def heap_empty : Heap := fun _ => none

/-- The texts "banana", "Apple", "cherry" inserted in this order at the tail of
a new queue, the elements being allocated at the addresses 1, 2 and 3. -/
def ex_fruit : Option (Heap × Option queue_t × Bool) :=
  (q_insert_tail heap_empty (q_new true) (text "banana") (some 1) true).bind fun r1 =>
    (q_insert_tail r1.1 r1.2.1 (text "Apple") (some 2) true).bind fun r2 =>
      q_insert_tail r2.1 r2.2.1 (text "cherry") (some 3) true

/-- The heap of `ex_fruit`. -/
def ex_fruit_heap : Heap :=
  match ex_fruit with
  | some r => r.1
  | none => heap_empty

/-- The queue of `ex_fruit`. -/
def ex_fruit_queue : queue_t := { head := some 1, tail := some 3, size := 3 }

/-- The texts "apple", "b", "Apple" inserted in this order at the tail of a new
queue, the elements being allocated at the addresses 1, 2 and 3. -/
def ex_ties : Option (Heap × Option queue_t × Bool) :=
  (q_insert_tail heap_empty (q_new true) (text "apple") (some 1) true).bind fun r1 =>
    (q_insert_tail r1.1 r1.2.1 (text "b") (some 2) true).bind fun r2 =>
      q_insert_tail r2.1 r2.2.1 (text "Apple") (some 3) true

/-- The heap of `ex_ties`. -/
def ex_ties_heap : Heap :=
  match ex_ties with
  | some r => r.1
  | none => heap_empty

/-- The queue of `ex_ties`. -/
def ex_ties_queue : queue_t := { head := some 1, tail := some 3, size := 3 }

/-- The texts "a", "b", "c" inserted in this order at the head of a new queue,
the elements being allocated at the addresses 1, 2 and 3: the queue c, b, a. -/
def ex_cba : Heap × Option queue_t × Bool :=
  let r1 := q_insert_head heap_empty (q_new true) (text "a") (some 1) true
  let r2 := q_insert_head r1.1 r1.2.1 (text "b") (some 2) true
  q_insert_head r2.1 r2.2.1 (text "c") (some 3) true

/-- The queue of `ex_cba`. -/
def ex_cba_queue : queue_t := { head := some 3, tail := some 1, size := 3 }

/-- The text "abcdefgh" inserted at the head of a new queue, the element being
allocated at the address 1. -/
def ex_long : Heap × Option queue_t × Bool :=
  q_insert_head heap_empty (q_new true) (text "abcdefgh") (some 1) true

/-- The queue of `ex_long`. -/
def ex_long_queue : queue_t := { head := some 1, tail := some 1, size := 1 }

/-- The text "a" inserted at the head of a new queue, the element being
allocated at the address 1. -/
def ex_one : Heap × Option queue_t × Bool :=
  q_insert_head heap_empty (q_new true) (text "a") (some 1) true

/-- The queue of `ex_one`. -/
def ex_one_queue : queue_t := { head := some 1, tail := some 1, size := 1 }

/-- The new, empty queue. -/
def ex_empty_queue : queue_t := { head := none, tail := none, size := 0 }

/-- The texts read from head to tail in the state `r` that an operation
returned. -/
def read_queue (fuel : Nat) (r : Option (Heap × Option queue_t)) : Option (List Text) :=
  match r with
  | some (h, some q) => chain_values fuel h q.head
  | _ => none

/-- One call of an operation of `queue.c` on the queue, together with what its
environment decides: the results of the two calls of `malloc`, or the
caller's buffer and capacity. -/
inductive Op where
  | insert_head (s : Text) (newh : Option Ptr) (value_ok : Bool)
  | insert_tail (s : Text) (newt : Option Ptr) (value_ok : Bool)
  | remove_head (sp : Option (List Nat)) (bufsize : Nat)
  | reverse
  | sort

/-- The state of a run of operations: the heap, the queue, and the numbers of
insertions and of removals that returned true so far. -/
structure Run where
  heap : Heap
  q : Option queue_t
  inserts : Int
  removes : Int

/-- The state after one operation, the counters following the returned
`bool`. -/
def run_op (fuel : Nat) (st : Run) : Op → Option Run
  | Op.insert_head s newh value_ok =>
    let r := q_insert_head st.heap st.q s newh value_ok
    some { heap := r.1, q := r.2.1,
           inserts := st.inserts + (if r.2.2 then 1 else 0), removes := st.removes }
  | Op.insert_tail s newt value_ok =>
    match q_insert_tail st.heap st.q s newt value_ok with
    | none => none
    | some r =>
      some { heap := r.1, q := r.2.1,
             inserts := st.inserts + (if r.2.2 then 1 else 0), removes := st.removes }
  | Op.remove_head sp bufsize =>
    match q_remove_head st.heap st.q sp bufsize with
    | none => none
    | some r =>
      some { heap := r.1, q := r.2.1, inserts := st.inserts,
             removes := st.removes + (if r.2.2.2 then 1 else 0) }
  | Op.reverse =>
    match q_reverse fuel st.heap st.q with
    | none => none
    | some r => some { heap := r.1, q := r.2, inserts := st.inserts, removes := st.removes }
  | Op.sort =>
    match q_sort fuel st.heap st.q with
    | none => none
    | some r => some { heap := r.1, q := r.2, inserts := st.inserts, removes := st.removes }

/-- The state after a sequence of operations. -/
def run_ops (fuel : Nat) : Run → List Op → Option Run
  | st, [] => some st
  | st, op :: ops =>
    match run_op fuel st op with
    | none => none
    | some st1 => run_ops fuel st1 ops

/-- The environment of one call is well formed: `malloc` returns `NULL` or an
address at which nothing is allocated, and a buffer has the capacity
`bufsize`, which is at least 1 and a value of `size_t`. -/
def op_ok (h : Heap) : Op → Bool
  | Op.insert_head _ newh _ =>
    match newh with
    | none => true
    | some p => decide (h p = none)
  | Op.insert_tail _ newt _ =>
    match newt with
    | none => true
    | some p => decide (h p = none)
  | Op.remove_head sp bufsize =>
    match sp with
    | none => true
    | some b => decide (1 ≤ bufsize ∧ bufsize ≤ b.length ∧ bufsize ≤ SIZE_MAX)
  | Op.reverse => true
  | Op.sort => true

/-- The environment of every call of a run is well formed, each in the state
its call starts from. -/
def ops_ok (fuel : Nat) : Run → List Op → Bool
  | _, [] => true
  | st, op :: ops =>
    op_ok st.heap op &&
      match run_op fuel st op with
      | none => true
      | some st1 => ops_ok fuel st1 ops

/-- The state of a run that starts from the queue `q_new` returns, in the
heap `h`. -/
def run_start (h : Heap) : Run :=
  { heap := h, q := q_new true, inserts := 0, removes := 0 }

/-- What following `next` for `k` steps from `p` arrives at (`NULL` when the
chain ends before). -/
def nth_next : Nat → Heap → Option Ptr → Option Ptr
  | 0, _, p => p
  | k + 1, h, p =>
    match p with
    | none => none
    | some a =>
      match h a with
      | none => none
      | some n => nth_next k h n.next

/-- The data-model invariant in the words of the specification: `size` is 0
iff `head` is absent iff `tail` is absent; when `size` is 1, `head` and `tail`
are the same element; following `next` from `head` reaches `tail` after
exactly `size - 1` steps and the element at `tail` has no `next`; and the chain
from `head` visits no element twice. -/
def data_model_inv (h : Heap) (q : queue_t) : Prop :=
  (q.size = 0 ↔ q.head = none) ∧ (q.head = none ↔ q.tail = none) ∧
  (q.size = 1 → q.head = q.tail) ∧
  (q.head ≠ none → ∃ k : Nat, (k : Int) + 1 = q.size ∧ nth_next k h q.head = q.tail ∧
    load_next h q.tail = some none) ∧
  (∀ i j a, i < j → nth_next i h q.head = some a → nth_next j h q.head ≠ some a)

/-- The texts "b", "c", "a" inserted in this order at the tail of a new queue,
the elements being allocated at the addresses 1, 2 and 3. -/
def ex_bca : Option (Heap × Option queue_t × Bool) :=
  (q_insert_tail heap_empty (q_new true) (text "b") (some 1) true).bind fun r1 =>
    (q_insert_tail r1.1 r1.2.1 (text "c") (some 2) true).bind fun r2 =>
      q_insert_tail r2.1 r2.2.1 (text "a") (some 3) true

/-- The heap of `ex_bca`. -/
def ex_bca_heap : Heap :=
  match ex_bca with
  | some r => r.1
  | none => heap_empty

/-- The queue of `ex_bca`. -/
def ex_bca_queue : queue_t := { head := some 1, tail := some 3, size := 3 }

/-- A run of operations on a new queue: two insertions, one insertion whose
allocation fails, a sort, a removal, a reversal and a removal. -/
def ex_ops : List Op :=
  [Op.insert_tail (text "b") (some 1) true, Op.insert_head (text "a") (some 2) true,
   Op.insert_head (text "c") none true, Op.sort, Op.remove_head (some (text "xxxx")) 4,
   Op.reverse, Op.remove_head none 0]

/-- The calls `q_insert_tail` of the texts of the list, in order, each element
being allocated at the address paired with its text; the `bool` tells whether
every call returned true. -/
def insert_all_tail (h : Heap) (q : Option queue_t) :
    List (Text × Ptr) → Option (Heap × Option queue_t × Bool)
  | [] => some (h, q, true)
  | sp :: rest =>
    match q_insert_tail h q sp.1 (some sp.2) true with
    | none => none
    | some r => (insert_all_tail r.1 r.2.1 rest).map (fun r2 => (r2.1, r2.2.1, r.2.2 && r2.2.2))

/-- The calls `q_insert_head` of the texts of the list, in order, each element
being allocated at the address paired with its text; the `bool` tells whether
every call returned true. -/
def insert_all_head (h : Heap) (q : Option queue_t) :
    List (Text × Ptr) → Heap × Option queue_t × Bool
  | [] => (h, q, true)
  | sp :: rest =>
    let r := q_insert_head h q sp.1 (some sp.2) true
    let r2 := insert_all_head r.1 r.2.1 rest
    (r2.1, r2.2.1, r.2.2 && r2.2.2)

/-- One call `q_remove_head` for each buffer of the list, in order, the capacity
passed being the size of the buffer; the result lists the buffers after their
calls, and the `bool` tells whether every call returned true. -/
def remove_all (h : Heap) (q : Option queue_t) :
    List (List Nat) → Option (Heap × Option queue_t × List (List Nat) × Bool)
  | [] => some (h, q, [], true)
  | b :: bs =>
    match q_remove_head h q (some b) b.length with
    | none => none
    | some r =>
      match r.2.2.1 with
      | none => none
      | some b1 =>
        (remove_all r.1 r.2.1 bs).map
          (fun r2 => (r2.1, r2.2.1, b1 :: r2.2.2.1, r.2.2.2 && r2.2.2.2))

/-- The bytes of a buffer `b` after the text `t`, shorter than the buffer, was
copied into it: the text, the terminator, and the old bytes of the buffer. -/
def copied (t : Text) (b : List Nat) : List Nat := t ++ 0 :: b.drop (strlen t + 1)

/-- Two sorted chains: "a", "c" at the addresses 1, 2 and "A", "b" at the
addresses 3, 4. -/
def ex_two_chains : Heap :=
  heap_write (heap_write (heap_write (heap_write heap_empty
    1 { value := text "a", next := some 2 })
    2 { value := text "c", next := none })
    3 { value := text "A", next := some 4 })
    4 { value := text "b", next := none }

/-- A run of two operations on a new queue: "a" is inserted at the head, and
`q_remove_head` is called with a buffer of 4 bytes and `bufsize == 0`. -/
def ex_ops_zero : List Op :=
  [Op.insert_head (text "a") (some 1) true, Op.remove_head (some (text "xxxx")) 0]

/-- Two heaps hold the same elements with the same texts: only `next` fields
may differ. -/
def same_values (h h' : Heap) : Prop :=
  ∀ p, (h' p).map (fun n => n.value) = (h p).map (fun n => n.value)

/-! ## The order of `strcasecmp` -/

theorem tolower_eq_zero (c : Nat) : tolower c = 0 ↔ c = 0 := by
  unfold tolower; split <;> omega

theorem strcasecmp_swap (a b : Text) : strcasecmp b a = - strcasecmp a b := by
  induction a generalizing b with
  | nil =>
    cases b with
    | nil => simp [strcasecmp]
    | cons y ys => simp [strcasecmp]
  | cons x xs ih =>
    cases b with
    | nil => simp [strcasecmp]
    | cons y ys =>
      simp only [strcasecmp]
      by_cases hxy : tolower x = tolower y
      · have hz : x = 0 ↔ y = 0 := by
          rw [← tolower_eq_zero x, ← tolower_eq_zero y, hxy]
        by_cases hx : x = 0
        · simp [hxy, hx, hz.mp hx]
        · have hy : ¬ y = 0 := fun e => hx (hz.mpr e)
          simp [hxy, hx, hy, ih ys]
      · have hyx : ¬ tolower y = tolower x := fun e => hxy e.symm
        simp [hxy, hyx]

theorem strcasecmp_trans (a b c : Text) (hab : strcasecmp a b < 1) (hbc : strcasecmp b c < 1) :
    strcasecmp a c < 1 := by
  induction a generalizing b c with
  | nil =>
    cases c with
    | nil => simp [strcasecmp]
    | cons z zs =>
      cases b with
      | nil => exact hbc
      | cons y ys =>
        simp only [strcasecmp] at *
        omega
  | cons x xs ih =>
    cases b with
    | nil =>
      cases c with
      | nil => exact hab
      | cons z zs =>
        simp only [strcasecmp] at *
        have := (tolower_eq_zero x)
        split_ifs <;> omega
    | cons y ys =>
      cases c with
      | nil =>
        simp only [strcasecmp] at *
        have := (tolower_eq_zero y)
        split_ifs at hab hbc <;> omega
      | cons z zs =>
        simp only [strcasecmp] at *
        have hx := (tolower_eq_zero x)
        have hy := (tolower_eq_zero y)
        have hz := (tolower_eq_zero z)
        split_ifs at hab hbc ⊢ <;> first | omega | exact ih _ _ hab hbc

theorem ele_le_trans (h : Heap) (a b c : Ptr) (hab : ele_le h a b = true)
    (hbc : ele_le h b c = true) : ele_le h a c = true := by
  simp only [ele_le, decide_eq_true_eq] at *
  exact strcasecmp_trans _ _ _ hab hbc

theorem ele_le_total (h : Heap) (a b : Ptr) : (ele_le h a b || ele_le h b a) = true := by
  simp only [ele_le, Bool.or_eq_true, decide_eq_true_eq]
  have := strcasecmp_swap (value_of h a) (value_of h b)
  omega

theorem ele_le_of_not (h : Heap) (a b : Ptr) (hab : (!ele_le h a b) = true) :
    ele_le h b a = true := by
  have := ele_le_total h a b
  cases h1 : ele_le h a b <;> simp_all

/-! ## Chains -/

theorem lseg_cons {h : Heap} {p e : Option Ptr} {a : Ptr} {as : List Ptr} :
    lseg h p (a :: as) e ↔ p = some a ∧ ∃ n, h a = some n ∧ lseg h n.next as e := by
  simp only [lseg]
  constructor
  · rintro ⟨hp, hm⟩
    refine ⟨hp, ?_⟩
    cases hn : h a with
    | none => rw [hn] at hm; exact hm.elim
    | some n => rw [hn] at hm; exact ⟨n, rfl, hm⟩
  · rintro ⟨hp, n, hn, hm⟩
    refine ⟨hp, ?_⟩
    rw [hn]; exact hm

theorem lseg_nil {h : Heap} {p e : Option Ptr} : lseg h p [] e ↔ p = e := by
  simp [lseg]

theorem lseg_frame {h h' : Heap} {l : List Ptr} {p e : Option Ptr}
    (hf : ∀ a ∈ l, h' a = h a) (hl : lseg h p l e) : lseg h' p l e := by
  induction l generalizing p with
  | nil => exact hl
  | cons a as ih =>
    rw [lseg_cons] at hl ⊢
    obtain ⟨hp, n, hn, hm⟩ := hl
    refine ⟨hp, n, ?_, ih (fun b hb => hf b (List.mem_cons_of_mem _ hb)) hm⟩
    rw [hf a (List.mem_cons_self _ _)]; exact hn

theorem lseg_append {h : Heap} {A B : List Ptr} {p e : Option Ptr} :
    lseg h p (A ++ B) e ↔ ∃ m, lseg h p A m ∧ lseg h m B e := by
  induction A generalizing p with
  | nil => simp [lseg]
  | cons a as ih =>
    simp only [List.cons_append, lseg_cons, ih]
    constructor
    · rintro ⟨hp, n, hn, m, h1, h2⟩
      exact ⟨m, ⟨hp, n, hn, h1⟩, h2⟩
    · rintro ⟨m, ⟨hp, n, hn, h1⟩, h2⟩
      exact ⟨hp, n, hn, m, h1, h2⟩

theorem lseg_unique {h : Heap} {l1 l2 : List Ptr} {p : Option Ptr}
    (h1 : lseg h p l1 none) (h2 : lseg h p l2 none) : l1 = l2 := by
  induction l1 generalizing p l2 with
  | nil =>
    cases l2 with
    | nil => rfl
    | cons b bs =>
      rw [lseg_nil] at h1
      rw [lseg_cons] at h2
      rw [h1] at h2
      exact absurd h2.1 (by simp)
  | cons a as ih =>
    rw [lseg_cons] at h1
    obtain ⟨hp, n, hn, hm⟩ := h1
    cases l2 with
    | nil =>
      rw [lseg_nil] at h2
      rw [h2] at hp
      exact absurd hp (by simp)
    | cons b bs =>
      rw [lseg_cons] at h2
      obtain ⟨hp2, n2, hn2, hm2⟩ := h2
      have hab : a = b := by rw [hp] at hp2; exact Option.some.inj hp2
      subst hab
      rw [hn] at hn2
      have hnn : n = n2 := Option.some.inj hn2
      subst hnn
      rw [ih hm hm2]

theorem lseg_nodup {h : Heap} {l : List Ptr} {p : Option Ptr} (hl : lseg h p l none) :
    l.Nodup := by
  induction l generalizing p with
  | nil => exact List.nodup_nil
  | cons a as ih =>
    rw [lseg_cons] at hl
    obtain ⟨_, n, hn, hm⟩ := hl
    refine List.nodup_cons.mpr ⟨?_, ih hm⟩
    intro hmem
    obtain ⟨A, B, hAB⟩ := List.append_of_mem hmem
    have hm2 := hm
    rw [hAB, lseg_append] at hm2
    obtain ⟨m, _, hB⟩ := hm2
    rw [lseg_cons] at hB
    obtain ⟨_, n2, hn2, hB2⟩ := hB
    rw [hn] at hn2
    have hnn : n = n2 := Option.some.inj hn2
    subst hnn
    have := lseg_unique hm hB2
    have hlen := congrArg List.length this
    rw [hAB] at hlen
    simp at hlen
    omega

theorem lseg_head {h : Heap} {l : List Ptr} {p : Option Ptr} (hl : lseg h p l none) :
    p = l.head? := by
  cases l with
  | nil => exact lseg_nil.mp hl
  | cons a as => exact (lseg_cons.mp hl).1

theorem lseg_alloc {h : Heap} {l : List Ptr} {p e : Option Ptr} (hl : lseg h p l e)
    {a : Ptr} (ha : a ∈ l) : ∃ n, h a = some n := by
  induction l generalizing p with
  | nil => simp at ha
  | cons b bs ih =>
    rw [lseg_cons] at hl
    obtain ⟨_, n, hn, hm⟩ := hl
    rcases List.mem_cons.mp ha with rfl | hb
    · exact ⟨n, hn⟩
    · exact ih hm hb

theorem same_values_refl (h : Heap) : same_values h h := fun _ => rfl

theorem same_values_trans {h1 h2 h3 : Heap} (a : same_values h1 h2) (b : same_values h2 h3) :
    same_values h1 h3 := fun p => (b p).trans (a p)

theorem value_of_eq {h h' : Heap} (hv : same_values h h') (a : Ptr) :
    value_of h' a = value_of h a := by
  have := hv a
  unfold value_of
  cases h1 : h a <;> cases h2 : h' a <;> simp_all

theorem ele_le_eq {h h' : Heap} (hv : same_values h h') : ele_le h' = ele_le h := by
  funext a b
  simp [ele_le, value_of_eq hv]

theorem store_next_spec {h : Heap} {a : Ptr} {n : list_ele_t} (hn : h a = some n)
    (v : Option Ptr) :
    store_next h (some a) v = some (heap_write h a { n with next := v }) := by
  simp [store_next, hn]

theorem heap_write_same (h : Heap) (a : Ptr) (n : list_ele_t) : heap_write h a n a = some n := by
  simp [heap_write]

theorem heap_write_other (h : Heap) {a b : Ptr} (n : list_ele_t) (hb : b ≠ a) :
    heap_write h a n b = h b := by
  simp [heap_write, hb]

theorem same_values_write {h : Heap} {a : Ptr} {n : list_ele_t} (hn : h a = some n)
    (v : Option Ptr) : same_values h (heap_write h a { n with next := v }) := by
  intro p
  by_cases hp : p = a
  · subst hp; simp [heap_write, hn]
  · simp [heap_write, hp]

theorem chain_values_of_lseg {h : Heap} {l : List Ptr} {p : Option Ptr}
    (hl : lseg h p l none) (fuel : Nat) (hf : l.length + 1 ≤ fuel) :
    chain_values fuel h p = some (l.map (value_of h)) := by
  induction l generalizing p fuel with
  | nil =>
    rw [lseg_nil] at hl
    subst hl
    cases fuel with
    | zero => omega
    | succ f => rfl
  | cons a as ih =>
    rw [lseg_cons] at hl
    obtain ⟨hp, n, hn, hm⟩ := hl
    subst hp
    cases fuel with
    | zero => omega
    | succ f =>
      have := ih hm f (by simp at hf; omega)
      simp [chain_values, hn, this, value_of]

theorem lseg_agree {h h' : Heap} {l : List Ptr} {p p' : Option Ptr}
    (h1 : lseg h p l none) (h2 : lseg h' p' l none) (hv : same_values h h') :
    ∀ a ∈ l, h' a = h a := by
  induction l generalizing p p' with
  | nil => intro a ha; simp at ha
  | cons b bs ih =>
    rw [lseg_cons] at h1 h2
    obtain ⟨_, n, hn, hm⟩ := h1
    obtain ⟨_, n', hn', hm'⟩ := h2
    intro a ha
    rcases List.mem_cons.mp ha with rfl | hb
    · have hval := hv a
      rw [hn, hn'] at hval
      have hnext : n'.next = n.next := (lseg_head hm').trans (lseg_head hm).symm
      rw [hn, hn']
      cases n; cases n'
      simp_all
    · exact ih hm hm' a hb

theorem lseg_getLast {h : Heap} {l : List Ptr} {p : Option Ptr} (hl : lseg h p l none)
    {t : Ptr} (ht : l.getLast? = some t) : load_next h (some t) = some none := by
  obtain ⟨A, rfl⟩ : ∃ A, l = A ++ [t] := by
    rcases List.eq_nil_or_concat l with rfl | ⟨A, b, rfl⟩
    · simp at ht
    · simp at ht; subst ht; exact ⟨A, by simp⟩
  rw [lseg_append] at hl
  obtain ⟨m, _, hB⟩ := hl
  rw [lseg_cons] at hB
  obtain ⟨_, n, hn, he⟩ := hB
  rw [lseg_nil] at he
  simp [load_next, hn, he]

/-! ## `q_reverse` -/

theorem q_reverse_loop_spec (L : List Ptr) :
    ∀ (h : Heap) (prev head : Option Ptr) (P : List Ptr) (fuel : Nat),
      lseg h head L none → lseg h prev P none → (∀ a ∈ L, a ∉ P) → L.length + 1 ≤ fuel →
      ∃ h' r, q_reverse_loop fuel h prev head = some (h', r) ∧
        lseg h' r (L.reverse ++ P) none ∧ (∀ p, p ∉ L → h' p = h p) ∧ same_values h h' := by
  induction L with
  | nil =>
    intro h prev head P fuel hL hP _ hf
    rw [lseg_nil] at hL
    subst hL
    cases fuel with
    | zero => omega
    | succ f => exact ⟨h, prev, rfl, by simpa using hP, fun _ _ => rfl, same_values_refl h⟩
  | cons a as ih =>
    intro h prev head P fuel hL hP hdisj hf
    have hnd := lseg_nodup hL
    rw [lseg_cons] at hL
    obtain ⟨hp, n, hn, hm⟩ := hL
    subst hp
    cases fuel with
    | zero => omega
    | succ f =>
      have haP : a ∉ P := hdisj a (List.mem_cons_self _ _)
      have haas : a ∉ as := (List.nodup_cons.mp hnd).1
      have hm1 : lseg (heap_write h a { n with next := prev }) n.next as none :=
        lseg_frame (fun b hb => heap_write_other h _ (fun e => haas (e ▸ hb))) hm
      have hP1 : lseg (heap_write h a { n with next := prev }) (some a) (a :: P) none := by
        rw [lseg_cons]
        refine ⟨rfl, _, heap_write_same h a _, ?_⟩
        exact lseg_frame (fun b hb => heap_write_other h _ (fun e => haP (e ▸ hb))) hP
      have hdisj1 : ∀ b ∈ as, b ∉ a :: P := by
        intro b hb hc
        rcases List.mem_cons.mp hc with rfl | hc
        · exact haas hb
        · exact hdisj b (List.mem_cons_of_mem _ hb) hc
      obtain ⟨h', r, hrun, hseg, hfr, hval⟩ :=
        ih _ (some a) n.next (a :: P) f hm1 hP1 hdisj1 (by simp at hf; omega)
      refine ⟨h', r, ?_, ?_, ?_, ?_⟩
      · simp only [q_reverse_loop, load_next, hn, Option.map_some', store_next]
        exact hrun
      · simpa using hseg
      · intro p hp
        have hpa : p ≠ a := fun e => hp (e ▸ List.mem_cons_self _ _)
        rw [hfr p (fun hc => hp (List.mem_cons_of_mem _ hc)), heap_write_other h _ hpa]
      · exact same_values_trans (same_values_write hn prev) hval

/-! ## `merge` -/

theorem load_value_spec {h : Heap} {a : Ptr} {n : list_ele_t} (hn : h a = some n) :
    load_value h (some a) = some (value_of h a) := by
  simp [load_value, value_of, hn]

theorem load_next_spec {h : Heap} {a : Ptr} {n : list_ele_t} (hn : h a = some n) :
    load_next h (some a) = some n.next := by
  simp [load_next, hn]

theorem merge_loop_spec :
    ∀ (fuel : Nat) (h : Heap) (t : Ptr) (nt : list_ele_t) (l1 l2 : Option Ptr)
      (L1 L2 : List Ptr),
      lseg h l1 L1 none → lseg h l2 L2 none → h t = some nt → (t :: (L1 ++ L2)).Nodup →
      (L1 ≠ [] ∨ L2 ≠ []) → L1.length + L2.length + 1 ≤ fuel →
      ∃ h1 t1 a b h', merge_loop fuel h (some t) l1 l2 = some (h1, t1, a, b) ∧
        merge_finish h1 t1 a b = some h' ∧
        lseg h' (some t) (t :: List.merge L1 L2 (ele_le h)) none ∧
        (∀ p, p ∉ t :: (L1 ++ L2) → h' p = h p) ∧ same_values h h' := by
  intro fuel
  induction fuel with
  | zero => intro h t nt l1 l2 L1 L2 _ _ _ _ _ hf; omega
  | succ f ih =>
    intro h t nt l1 l2 L1 L2 hL1 hL2 ht hnd hne hf
    have htn : t ∉ L1 ++ L2 := (List.nodup_cons.mp hnd).1
    cases L1 with
    | nil =>
      rw [lseg_nil] at hL1
      subst hL1
      cases L2 with
      | nil => simp at hne
      | cons b L2 =>
        have hb := (lseg_cons.mp hL2).1
        subst hb
        refine ⟨h, some t, none, some b, heap_write h t { nt with next := some b }, ?_, ?_,
          ?_, ?_, same_values_write ht _⟩
        · simp [merge_loop]
        · simp [merge_finish, store_next, ht]
        · rw [List.nil_merge, lseg_cons]
          refine ⟨rfl, _, heap_write_same h t _, ?_⟩
          exact lseg_frame (fun c hc => heap_write_other h _ (fun e => htn (by simpa [e] using hc))) hL2
        · intro p hp
          exact heap_write_other h _ (fun e => hp (by simp [e]))
    | cons a L1 =>
      have hL1c := lseg_cons.mp hL1
      obtain ⟨ha, na, hna, hL1t⟩ := hL1c
      subst ha
      cases L2 with
      | nil =>
        rw [lseg_nil] at hL2
        subst hL2
        refine ⟨h, some t, some a, none, heap_write h t { nt with next := some a }, ?_, ?_,
          ?_, ?_, same_values_write ht _⟩
        · simp [merge_loop]
        · simp [merge_finish, store_next, ht]
        · rw [List.merge_right, lseg_cons]
          refine ⟨rfl, _, heap_write_same h t _, ?_⟩
          exact lseg_frame (fun c hc => heap_write_other h _ (fun e => htn (by simpa [e] using hc))) hL1
        · intro p hp
          exact heap_write_other h _ (fun e => hp (by simp [e]))
      | cons b L2 =>
        obtain ⟨hb, nb, hnb, hL2t⟩ := lseg_cons.mp hL2
        subst hb
        have hnd2 : (a :: (L1 ++ b :: L2)).Nodup := (List.nodup_cons.mp hnd).2
        have hta : t ≠ a := fun e => htn (by simp [e])
        have htb : t ≠ b := fun e => htn (by simp [e])
        have hab : a ≠ b := fun e => (List.nodup_cons.mp hnd2).1 (by simp [e])
        by_cases hle : ele_le h a b = true
        · -- the element of `l1` is linked
          have hsv := same_values_write ht (some a)
          have hL1' : lseg (heap_write h t { nt with next := some a }) na.next L1 none :=
            lseg_frame (fun c hc => heap_write_other h _
              (fun e => htn (by simp [← e, hc]))) hL1t
          have hL2' : lseg (heap_write h t { nt with next := some a }) (some b) (b :: L2) none :=
            lseg_frame (fun c hc => heap_write_other h _
              (fun e => htn (by
                rw [← e]; exact List.mem_append_right _ hc))) hL2
          have hna' : heap_write h t { nt with next := some a } a = some na := by
            rw [heap_write_other h _ hta.symm]; exact hna
          obtain ⟨h1, t1, x, y, h', hrun, hfin, hseg, hfr, hval⟩ :=
            ih _ a na na.next (some b) L1 (b :: L2) hL1' hL2' hna' hnd2 (Or.inr (by simp))
              (by simp at hf ⊢; omega)
          refine ⟨h1, t1, x, y, h', ?_, hfin, ?_, ?_, same_values_trans hsv hval⟩
          · have hc : strcasecmp (value_of h a) (value_of h b) < 1 := by
              simpa [ele_le] using hle
            simp only [merge_loop, Option.isSome_some, Bool.and_self, if_true,
              load_value_spec hna, load_value_spec hnb, hc, store_next_spec ht,
              load_next_spec (heap_write_same h t _), load_next_spec hna']
            exact hrun
          · rw [List.cons_merge_cons, if_pos hle, lseg_cons]
            refine ⟨rfl, { nt with next := some a }, ?_, ?_⟩
            · rw [hfr t (by
                intro hc
                rcases List.mem_cons.mp hc with e | hc
                · exact hta e
                · exact htn (List.mem_cons_of_mem _ hc))]
              exact heap_write_same h t _
            · rw [← ele_le_eq hsv]; exact hseg
          · intro p hp
            have hpt : p ≠ t := fun e => hp (by simp [e])
            rw [hfr p (fun hc => hp (List.mem_cons_of_mem _ hc)), heap_write_other h _ hpt]
        · -- the element of `l2` is linked
          have hsv := same_values_write ht (some b)
          have hL1' : lseg (heap_write h t { nt with next := some b }) (some a) (a :: L1) none :=
            lseg_frame (fun c hc => heap_write_other h _
              (fun e => htn (by
                rw [← e]; exact List.mem_append_left _ hc))) hL1
          have hL2' : lseg (heap_write h t { nt with next := some b }) nb.next L2 none :=
            lseg_frame (fun c hc => heap_write_other h _
              (fun e => htn (by
                rw [← e]; exact List.mem_append_right _ (List.mem_cons_of_mem _ hc)))) hL2t
          have hnb' : heap_write h t { nt with next := some b } b = some nb := by
            rw [heap_write_other h _ htb.symm]; exact hnb
          have hnd3 : (b :: (a :: L1 ++ L2)).Nodup := by
            have hperm : (b :: (a :: L1 ++ L2)).Perm (a :: L1 ++ b :: L2) :=
              (List.perm_middle).symm
            exact hperm.nodup_iff.mpr hnd2
          obtain ⟨h1, t1, x, y, h', hrun, hfin, hseg, hfr, hval⟩ :=
            ih _ b nb (some a) nb.next (a :: L1) L2 hL1' hL2' hnb' hnd3 (Or.inl (by simp))
              (by simp at hf ⊢; omega)
          refine ⟨h1, t1, x, y, h', ?_, hfin, ?_, ?_, same_values_trans hsv hval⟩
          · have hc : ¬ strcasecmp (value_of h a) (value_of h b) < 1 := by
              simpa [ele_le] using hle
            simp only [merge_loop, Option.isSome_some, Bool.and_self, if_true,
              load_value_spec hna, load_value_spec hnb, hc, if_false, store_next_spec ht,
              load_next_spec (heap_write_same h t _), load_next_spec hnb']
            exact hrun
          · rw [List.cons_merge_cons, if_neg hle, lseg_cons]
            refine ⟨rfl, { nt with next := some b }, ?_, ?_⟩
            · rw [hfr t (by
                intro hc
                rcases List.mem_cons.mp hc with e | hc
                · exact htb e
                · exact htn (by
                    rcases List.mem_append.mp hc with hc | hc
                    · exact List.mem_append_left _ hc
                    · exact List.mem_append_right _ (List.mem_cons_of_mem _ hc)))]
              exact heap_write_same h t _
            · rw [← ele_le_eq hsv]; exact hseg
          · intro p hp
            have hpt : p ≠ t := fun e => hp (by simp [e])
            rw [hfr p (fun hc => hp (by
              rcases List.mem_cons.mp hc with e | hc
              · simp [e]
              · rcases List.mem_append.mp hc with hc | hc
                · simp at hc; rcases hc with e | hc <;> simp [*]
                · simp [hc])), heap_write_other h _ hpt]

theorem merge_spec (fuel : Nat) (h : Heap) (l1 l2 : Option Ptr) (L1 L2 : List Ptr)
    (hL1 : lseg h l1 L1 none) (hL2 : lseg h l2 L2 none) (h1 : L1 ≠ []) (h2 : L2 ≠ [])
    (hnd : (L1 ++ L2).Nodup) (hf : L1.length + L2.length ≤ fuel) :
    ∃ h' q, merge fuel h l1 l2 = some (h', q) ∧
      lseg h' q (List.merge L1 L2 (ele_le h)) none ∧
      (∀ p, p ∉ L1 ++ L2 → h' p = h p) ∧ same_values h h' := by
  cases L1 with
  | nil => exact absurd rfl h1
  | cons a L1 =>
    cases L2 with
    | nil => exact absurd rfl h2
    | cons b L2 =>
      obtain ⟨ha, na, hna, hL1t⟩ := lseg_cons.mp hL1
      obtain ⟨hb, nb, hnb, hL2t⟩ := lseg_cons.mp hL2
      subst ha; subst hb
      by_cases hle : ele_le h a b = true
      · obtain ⟨hx, t1, x, y, h', hrun, hfin, hseg, hfr, hval⟩ :=
          merge_loop_spec fuel h a na na.next (some b) L1 (b :: L2) hL1t hL2 hna hnd
            (Or.inr (by simp)) (by simp at hf ⊢; omega)
        refine ⟨h', some a, ?_, ?_, hfr, hval⟩
        · have hc : strcasecmp (value_of h a) (value_of h b) < 1 := by
            simpa [ele_le] using hle
          simp only [merge, load_value_spec hna, load_value_spec hnb, hc, if_true,
            load_next_spec hna, Option.map_some', hrun, hfin]
        · rw [List.cons_merge_cons, if_pos hle]; exact hseg
      · have hnd3 : (b :: (a :: L1 ++ L2)).Nodup := by
          have hperm : (b :: (a :: L1 ++ L2)).Perm (a :: L1 ++ b :: L2) :=
            (List.perm_middle).symm
          exact hperm.nodup_iff.mpr hnd
        obtain ⟨hx, t1, x, y, h', hrun, hfin, hseg, hfr, hval⟩ :=
          merge_loop_spec fuel h b nb (some a) nb.next (a :: L1) L2 hL1 hL2t hnb hnd3
            (Or.inl (by simp)) (by simp at hf ⊢; omega)
        refine ⟨h', some b, ?_, ?_, ?_, hval⟩
        · have hc : ¬ strcasecmp (value_of h a) (value_of h b) < 1 := by
            simpa [ele_le] using hle
          simp only [merge, load_value_spec hna, load_value_spec hnb, hc, if_false,
            load_next_spec hnb, Option.map_some', hrun, hfin]
        · rw [List.cons_merge_cons, if_neg hle]; exact hseg
        · intro p hp
          apply hfr p
          intro hc
          apply hp
          have hperm : (b :: (a :: L1 ++ L2)).Perm (a :: L1 ++ b :: L2) :=
            (List.perm_middle).symm
          exact hperm.mem_iff.mp hc

/-! ## `MergeSortList` -/

theorem mergeSort_split {α : Type} (le : α → α → Bool) (L : List α) (hL : 2 ≤ L.length) :
    List.mergeSort L le =
      List.merge (List.mergeSort (L.take ((L.length + 1) / 2)) le)
        (List.mergeSort (L.drop ((L.length + 1) / 2)) le) le := by
  match L, hL with
  | a :: b :: xs, _ =>
    rw [List.mergeSort]
    simp only [List.splitInTwo, List.splitAt_eq, List.length_cons]

theorem take_succ_of_drop {α : Type} :
    ∀ (L : List α) (k : Nat) (c : α) (rest : List α), L.drop k = c :: rest →
      L.take (k + 1) = L.take k ++ [c] ∧ L.drop (k + 1) = rest := by
  intro L
  induction L with
  | nil => intro k c rest hd; simp at hd
  | cons x xs ih =>
    intro k c rest hd
    cases k with
    | zero =>
      simp only [List.drop_zero, List.cons.injEq] at hd
      obtain ⟨rfl, rfl⟩ := hd
      simp
    | succ k =>
      simp only [List.drop_succ_cons] at hd
      obtain ⟨h1, h2⟩ := ih k c rest hd
      simp only [List.take_succ_cons, List.drop_succ_cons, List.cons_append, h2, and_true]
      rw [h1]

theorem split_walk_spec :
    ∀ (fuel : Nat) (h : Heap) (slow fast : Option Ptr) (Ls Lf : List Ptr),
      lseg h slow Ls none → lseg h fast Lf none → Lf.length / 2 < Ls.length →
      Lf.length + 1 ≤ fuel →
      ∃ s, split_walk fuel h slow fast = some s ∧ lseg h s (Ls.drop (Lf.length / 2)) none := by
  intro fuel
  induction fuel with
  | zero => intro h slow fast Ls Lf _ _ _ hf; omega
  | succ f ih =>
    intro h slow fast Ls Lf hLs hLf hlen hf
    cases Lf with
    | nil =>
      rw [lseg_nil] at hLf
      subst hLf
      exact ⟨slow, by simp [split_walk], by simpa using hLs⟩
    | cons x Lf =>
      obtain ⟨hx, nx, hnx, hLft⟩ := lseg_cons.mp hLf
      subst hx
      cases Lf with
      | nil =>
        rw [lseg_nil] at hLft
        refine ⟨slow, ?_, by simpa using hLs⟩
        simp [split_walk, load_next_spec hnx, hLft]
      | cons y Lf =>
        obtain ⟨hy, ny, hny, hLftt⟩ := lseg_cons.mp hLft
        cases Ls with
        | nil => simp at hlen
        | cons z Ls =>
          obtain ⟨hz, nz, hnz, hLst⟩ := lseg_cons.mp hLs
          subst hz
          obtain ⟨s, hrun, hseg⟩ := ih h nz.next ny.next Ls Lf hLst hLftt
            (by simp at hlen; omega) (by simp at hf; omega)
          refine ⟨s, ?_, ?_⟩
          · simp only [split_walk, load_next_spec hnx, hy, load_next_spec hny,
              load_next_spec hnz]
            exact hrun
          · have e : (y :: Lf).length.succ / 2 = Lf.length / 2 + 1 := by
              simp; omega
            simp only [List.length_cons] at e ⊢
            rw [e, List.drop_succ_cons]
            exact hseg

theorem MergeSortList_spec :
    ∀ (fuel : Nat) (h : Heap) (head : Option Ptr) (L : List Ptr),
      lseg h head L none → L.length + 1 ≤ fuel →
      ∃ h' r, MergeSortList fuel h head = some (h', r) ∧
        lseg h' r (List.mergeSort L (ele_le h)) none ∧
        (∀ p, p ∉ L → h' p = h p) ∧ same_values h h' := by
  intro fuel
  induction fuel with
  | zero => intro h head L _ hf; omega
  | succ f ih =>
    intro h head L hL hf
    have hnd := lseg_nodup hL
    match L, hL, hf, hnd with
    | [], hL, _, _ =>
      rw [lseg_nil] at hL
      subst hL
      exact ⟨h, none, by simp [MergeSortList], by simp [List.mergeSort, lseg],
        fun _ _ => rfl, same_values_refl h⟩
    | [a], hL, _, _ =>
      obtain ⟨ha, na, hna, hLt⟩ := lseg_cons.mp hL
      subst ha
      rw [lseg_nil] at hLt
      refine ⟨h, some a, ?_, ?_, fun _ _ => rfl, same_values_refl h⟩
      · simp [MergeSortList, load_next_spec hna, hLt]
      · simpa [List.mergeSort] using hL
    | a :: b :: xs, hL, hf, hnd =>
      obtain ⟨ha, na, hna, hLt⟩ := lseg_cons.mp hL
      subst ha
      obtain ⟨hb, nb, hnb, hLtt⟩ := lseg_cons.mp hLt
      -- the walk stops with `slow` at the element of index `(n - 1) / 2`
      obtain ⟨s, hwalk, hs⟩ := split_walk_spec f h (some a) (some b) (a :: b :: xs) (b :: xs)
        hL (hb ▸ hLt) (by simp; omega) (by simp at hf ⊢; omega)
      set L := a :: b :: xs with hLdef
      set k := (b :: xs).length / 2 with hk
      have hkL : k < L.length := by simp [hk, hLdef]; omega
      have hk1 : k + 1 = (L.length + 1) / 2 := by simp [hk, hLdef]; omega
      obtain ⟨c, rest, hdrop⟩ : ∃ c rest, L.drop k = c :: rest := by
        cases hd : L.drop k with
        | nil =>
          have := congrArg List.length hd
          simp at this; omega
        | cons c rest => exact ⟨c, rest, rfl⟩
      rw [hdrop] at hs
      obtain ⟨hsc, nc, hnc, hrest⟩ := lseg_cons.mp hs
      subst hsc
      have hsplit : L = L.take k ++ c :: rest := by
        rw [← hdrop, List.take_append_drop]
      have hnd' : (L.take k ++ c :: rest).Nodup := hsplit ▸ hnd
      have hc1 : c ∉ L.take k := by
        intro hc
        exact (List.nodup_append.mp hnd').2.2 hc (List.mem_cons_self _ _)
      have hc2 : c ∉ rest := by
        have := (List.nodup_append.mp hnd').2.1
        exact (List.nodup_cons.mp this).1
      have hL' : lseg h (some a) (L.take k ++ c :: rest) none := hsplit ▸ hL
      obtain ⟨m, hfront, hback⟩ := lseg_append.mp hL'
      have hm : m = some c := (lseg_cons.mp hback).1
      subst hm
      -- the two halves after `slow->next = NULL`
      obtain ⟨hL1def, hL2def⟩ := take_succ_of_drop L k c rest hdrop
      have hw : store_next h (some c) none = some (heap_write h c { nc with next := none }) :=
        store_next_spec hnc none
      have hsv1 : same_values h (heap_write h c { nc with next := none }) :=
        same_values_write hnc none
      have hseg1 : lseg (heap_write h c { nc with next := none }) (some a) (L.take (k + 1))
          none := by
        rw [hL1def, lseg_append]
        refine ⟨some c, lseg_frame (fun x hx => heap_write_other h _
          (fun e => hc1 (e ▸ hx))) hfront, ?_⟩
        rw [lseg_cons]
        exact ⟨rfl, _, heap_write_same h c _, rfl⟩
      have hseg2 : lseg (heap_write h c { nc with next := none }) nc.next rest none :=
        lseg_frame (fun x hx => heap_write_other h _ (fun e => hc2 (e ▸ hx))) hrest
      have hfr0 : ∀ p, p ∉ L → heap_write h c { nc with next := none } p = h p := by
        intro p hp
        refine heap_write_other h _ (fun e => hp ?_)
        rw [hsplit, e]
        exact List.mem_append_right _ (List.mem_cons_self _ _)
      generalize heap_write h c { nc with next := none } = h1 at hw hsv1 hseg1 hseg2 hfr0
      have hlen1 : (L.take (k + 1)).length = k + 1 := by
        rw [List.length_take]; omega
      have hlen2 : rest.length = L.length - (k + 1) := by
        rw [← hL2def, List.length_drop]
      have hLsplit : L = L.take (k + 1) ++ rest := by
        rw [← hL2def, List.take_append_drop]
      have hnd12 : (L.take (k + 1) ++ rest).Nodup := hLsplit ▸ hnd
      have hdisj : ∀ x, x ∈ L.take (k + 1) → x ∉ rest :=
        fun x hx1 hx2 => (List.nodup_append.mp hnd12).2.2 hx1 hx2
      have hk2 : k + 1 < L.length := by simp [hk, hLdef]; omega
      -- the two recursive calls
      obtain ⟨h2, r1, hrun1, hs1, hfr1, hsv2⟩ :=
        ih h1 (some a) (L.take (k + 1)) hseg1 (by omega)
      have hseg2' : lseg h2 nc.next rest none :=
        lseg_frame (fun x hx => hfr1 x (fun hx1 => hdisj x hx1 hx)) hseg2
      obtain ⟨h3, r2, hrun2, hs2, hfr2, hsv3⟩ := ih h2 nc.next rest hseg2' (by omega)
      have hle1 : ele_le h1 = ele_le h := ele_le_eq hsv1
      have hle2 : ele_le h2 = ele_le h := ele_le_eq (same_values_trans hsv1 hsv2)
      have hle3 : ele_le h3 = ele_le h :=
        ele_le_eq (same_values_trans (same_values_trans hsv1 hsv2) hsv3)
      rw [hle1] at hs1
      rw [hle2] at hs2
      have hp1 := List.mergeSort_perm (L.take (k + 1)) (ele_le h)
      have hp2 := List.mergeSort_perm rest (ele_le h)
      have hs1' : lseg h3 r1 (List.mergeSort (L.take (k + 1)) (ele_le h)) none :=
        lseg_frame (fun x hx => hfr2 x (fun hx2 => hdisj x (hp1.mem_iff.mp hx) hx2)) hs1
      -- the merge of the two sorted halves
      obtain ⟨h', q, hrunm, hsm, hfrm, hsvm⟩ := merge_spec f h3 r1 r2 _ _ hs1' hs2
        (by
          intro e
          have := hp1.length_eq
          rw [e, hlen1] at this
          simp at this)
        (by
          intro e
          have := hp2.length_eq
          rw [e, hlen2] at this
          simp at this
          omega)
        ((List.Perm.append hp1 hp2).nodup_iff.mpr hnd12)
        (by rw [hp1.length_eq, hp2.length_eq, hlen1, hlen2]; omega)
      refine ⟨h', q, ?_, ?_, ?_, ?_⟩
      · simp only [MergeSortList, load_next_spec hna, hb, hwalk, load_next_spec hnc, hw,
          hrun1, hrun2]
        exact hrunm
      · rw [mergeSort_split _ L (by omega), ← hk1, hL2def]
        rw [hle3] at hsm
        exact hsm
      · intro p hp
        have hp1' : p ∉ L.take (k + 1) := fun hc => hp (hLsplit ▸ List.mem_append_left _ hc)
        have hp2' : p ∉ rest := fun hc => hp (hLsplit ▸ List.mem_append_right _ hc)
        rw [hfrm p (by
          intro hc
          rcases List.mem_append.mp hc with hc | hc
          · exact hp1' (hp1.mem_iff.mp hc)
          · exact hp2' (hp2.mem_iff.mp hc)), hfr2 p hp2', hfr1 p hp1', hfr0 p hp]
      · exact same_values_trans (same_values_trans (same_values_trans hsv1 hsv2) hsv3) hsvm

/-! ## `q_sort` -/

theorem tail_walk_spec (L : List Ptr) :
    ∀ (fuel : Nat) (h : Heap) (p : Option Ptr), lseg h p L none → L.length + 1 ≤ fuel →
      tail_walk fuel h p = some L.getLast? := by
  induction L with
  | nil =>
    intro fuel h p hL hf
    rw [lseg_nil] at hL
    subst hL
    cases fuel with
    | zero => omega
    | succ f => rfl
  | cons a as ih =>
    intro fuel h p hL hf
    obtain ⟨ha, na, hna, hLt⟩ := lseg_cons.mp hL
    subst ha
    cases fuel with
    | zero => omega
    | succ f =>
      cases as with
      | nil =>
        rw [lseg_nil] at hLt
        simp [tail_walk, load_next_spec hna, hLt]
      | cons b bs =>
        have hb := (lseg_cons.mp hLt).1
        have := ih f h (some b) (hb ▸ hLt) (by simp at hf ⊢; omega)
        simp only [tail_walk, load_next_spec hna, hb, this, List.getLast?_cons_cons]

theorem head_ne_getLast {l : List Ptr} (hnd : l.Nodup) (hlen : 2 ≤ l.length) :
    l.head? ≠ l.getLast? := by
  match l, hnd, hlen with
  | a :: b :: xs, hnd, _ =>
    rw [List.getLast?_cons_cons, List.head?_cons]
    intro e
    have hmem : a ∈ b :: xs := List.mem_of_getLast?_eq_some e.symm
    exact (List.nodup_cons.mp hnd).1 hmem

theorem q_sort_spec (h : Heap) (q : queue_t) (l : List Ptr) (fuel : Nat)
    (hinv : queue_inv h q l) (hf : l.length + 1 ≤ fuel) :
    ∃ h' q', q_sort fuel h (some q) = some (h', some q') ∧
      queue_inv h' q' (List.mergeSort l (ele_le h)) ∧
      (∀ p, p ∉ l → h' p = h p) ∧ same_values h h' ∧ q'.size = q.size := by
  obtain ⟨hseg, htail, hsize⟩ := hinv
  have hhead := lseg_head hseg
  by_cases hlen : l.length < 2
  · refine ⟨h, q, ?_, ?_, fun _ _ => rfl, same_values_refl h, rfl⟩
    · match l, hlen, hhead, htail with
      | [], _, hhead, _ => simp [q_sort, hhead]
      | [a], _, hhead, htail => simp [q_sort, hhead, htail]
    · have e : List.mergeSort l (ele_le h) = l := by
        match l, hlen with
        | [], _ => simp [List.mergeSort]
        | [a], _ => simp [List.mergeSort]
      rw [e]
      exact ⟨hseg, htail, hsize⟩
  · have hnd := lseg_nodup hseg
    have hne : q.head ≠ q.tail := by
      rw [hhead, htail]
      exact head_ne_getLast hnd (by omega)
    have hne2 : q.head ≠ none := by
      rw [hhead]
      match l, hlen with
      | a :: _, _ => simp
    obtain ⟨h', r, hrun, hs, hfr, hsv⟩ := MergeSortList_spec fuel h q.head l hseg hf
    have hperm := List.mergeSort_perm l (ele_le h)
    have htw := tail_walk_spec _ fuel h' r hs (by rw [hperm.length_eq]; exact hf)
    refine ⟨h', { q with head := r, tail := (List.mergeSort l (ele_le h)).getLast? }, ?_,
      ⟨hs, rfl, ?_⟩, hfr, hsv, rfl⟩
    · simp only [q_sort, hne, hne2, if_false, hrun, htw]
    · simp only [hperm.length_eq]; exact hsize

/-! ## Merge sort and insertion sort -/

theorem merge_orderedInsert {α : Type} (le : α → α → Bool)
    (htrans : ∀ a b c, le a b = true → le b c = true → le a c = true)
    (htotal : ∀ a b, (!le a b) = true → le b a = true) (a : α) :
    ∀ (X Y : List α),
      List.merge (List.orderedInsert (fun x y => le x y = true) a X) Y le =
        List.orderedInsert (fun x y => le x y = true) a (List.merge X Y le) := by
  intro X
  induction X with
  | nil =>
    intro Y
    induction Y with
    | nil => simp
    | cons y ys ihy =>
      simp only [List.orderedInsert, List.nil_merge] at ihy ⊢
      rw [List.cons_merge_cons]
      by_cases hay : le a y = true
      · simp [hay]
      · simp [hay, ihy]
  | cons x xs ihx =>
    intro Y
    induction Y with
    | nil => simp
    | cons y ys ihy =>
      by_cases hax : le a x = true
      · have e1 : List.orderedInsert (fun x y => le x y = true) a (x :: xs) = a :: x :: xs := by
          simp [List.orderedInsert, hax]
        rw [e1] at ihy ⊢
        by_cases hxy : le x y = true
        · have hay := htrans _ _ _ hax hxy
          rw [List.cons_merge_cons, if_pos hay, List.cons_merge_cons, if_pos hxy]
          simp [List.orderedInsert, hax]
        · rw [List.cons_merge_cons (a := x), if_neg hxy]
          by_cases hay : le a y = true
          · rw [List.cons_merge_cons, if_pos hay, List.cons_merge_cons, if_neg hxy]
            simp [List.orderedInsert, hay]
          · rw [List.cons_merge_cons, if_neg hay, ihy]
            simp [List.orderedInsert, hay]
      · have e1 : List.orderedInsert (fun x y => le x y = true) a (x :: xs) =
            x :: List.orderedInsert (fun x y => le x y = true) a xs := by
          simp [List.orderedInsert, hax]
        rw [e1] at ihy ⊢
        by_cases hxy : le x y = true
        · rw [List.cons_merge_cons, if_pos hxy, List.cons_merge_cons, if_pos hxy, ihx]
          simp [List.orderedInsert, hax]
        · have hyx : le y x = true := htotal x y (by simpa using hxy)
          have hay : ¬ le a y = true := fun hc => hax (htrans _ _ _ hc hyx)
          rw [List.cons_merge_cons, if_neg hxy, List.cons_merge_cons, if_neg hxy, ihy]
          simp [List.orderedInsert, hay]

theorem merge_insertionSort {α : Type} (le : α → α → Bool)
    (htrans : ∀ a b c, le a b = true → le b c = true → le a c = true)
    (htotal : ∀ a b, (!le a b) = true → le b a = true) (l1 l2 : List α) :
    List.merge (List.insertionSort (fun x y => le x y = true) l1)
        (List.insertionSort (fun x y => le x y = true) l2) le =
      List.insertionSort (fun x y => le x y = true) (l1 ++ l2) := by
  induction l1 with
  | nil => simp
  | cons a l1 ih =>
    rw [List.cons_append, List.insertionSort, List.insertionSort,
      merge_orderedInsert le htrans htotal, ih]

theorem mergeSort_eq_insertionSort {α : Type} (le : α → α → Bool)
    (htrans : ∀ a b c, le a b = true → le b c = true → le a c = true)
    (htotal : ∀ a b, (!le a b) = true → le b a = true) :
    ∀ (n : Nat) (l : List α), l.length ≤ n →
      List.mergeSort l le = List.insertionSort (fun x y => le x y = true) l := by
  intro n
  induction n with
  | zero =>
    intro l hl
    have : l = [] := List.length_eq_zero.mp (by omega)
    subst this
    simp [List.mergeSort]
  | succ n ih =>
    intro l hl
    by_cases hlen : l.length < 2
    · match l, hlen with
      | [], _ => simp [List.mergeSort]
      | [a], _ => simp [List.mergeSort]
    · rw [mergeSort_split le l (by omega),
        ih (l.take ((l.length + 1) / 2)) (by rw [List.length_take]; omega),
        ih (l.drop ((l.length + 1) / 2)) (by rw [List.length_drop]; omega),
        merge_insertionSort le htrans htotal, List.take_append_drop]

theorem insertionSort_congr {α : Type} (r s : α → α → Prop) [DecidableRel r] [DecidableRel s]
    (hrs : ∀ a b, r a b ↔ s a b) (l : List α) :
    List.insertionSort r l = List.insertionSort s l := by
  have hins : ∀ (a : α) (l : List α), List.orderedInsert r a l = List.orderedInsert s a l := by
    intro a l
    induction l with
    | nil => rfl
    | cons b l ih =>
      simp only [List.orderedInsert, ih]
      by_cases hab : r a b
      · rw [if_pos hab, if_pos ((hrs a b).mp hab)]
      · rw [if_neg hab, if_neg (fun hc => hab ((hrs a b).mpr hc))]
  induction l with
  | nil => rfl
  | cons a l ih => simp only [List.insertionSort, ih, hins]

/-! ## The claims on `q_sort` -/

theorem strcasecmp_le_of_ele_le {h : Heap} {a b : Ptr} (hab : ele_le h a b = true) :
    strcasecmp (value_of h a) (value_of h b) ≤ 0 := by
  have : strcasecmp (value_of h a) (value_of h b) < 1 := by simpa [ele_le] using hab
  omega

theorem map_value_of_eq {h h' : Heap} (hv : same_values h h') (l : List Ptr) :
    l.map (value_of h') = l.map (value_of h) := by
  have : value_of h' = value_of h := funext (value_of_eq hv)
  rw [this]

/-- C1: for every queue satisfying the data-model invariant, `q_sort` returns
(with any fuel above the number of elements) and the texts then read from head
to tail are in ascending case-insensitive order: each compares `<= 0` under
`strcasecmp` with the one that follows it, and indeed with every later one. -/
theorem q_sort_ascending (h : Heap) (q : queue_t) (l : List Ptr) (fuel : Nat)
    (hinv : queue_inv h q l) (hf : l.length + 1 ≤ fuel) :
    ∃ h' q' vs, q_sort fuel h (some q) = some (h', some q') ∧
      chain_values fuel h' q'.head = some vs ∧
      List.Chain' (fun x y => strcasecmp x y ≤ 0) vs ∧
      List.Pairwise (fun x y => strcasecmp x y ≤ 0) vs := by
  obtain ⟨h', q', hrun, hinv', _, hsv, _⟩ := q_sort_spec h q l fuel hinv hf
  have hperm := List.mergeSort_perm l (ele_le h)
  have hread := chain_values_of_lseg hinv'.1 fuel (by rw [hperm.length_eq]; exact hf)
  have hsorted : List.Pairwise (fun x y => strcasecmp x y ≤ 0)
      ((List.mergeSort l (ele_le h)).map (value_of h')) := by
    rw [map_value_of_eq hsv, List.pairwise_map]
    exact (List.sorted_mergeSort (ele_le_trans h) (ele_le_total h) l).imp
      (fun hab => strcasecmp_le_of_ele_le hab)
  exact ⟨h', q', _, hrun, hread, hsorted.chain', hsorted⟩

/-- The witness of C1: "banana", "Apple", "cherry" are inserted at the tail,
and sorting yields "Apple", "banana", "cherry". -/
theorem q_sort_ascending_witness :
    ex_fruit = some (ex_fruit_heap, some ex_fruit_queue, true) ∧
    queue_inv ex_fruit_heap ex_fruit_queue [1, 2, 3] ∧
    (∃ h' q' vs, q_sort 4 ex_fruit_heap (some ex_fruit_queue) = some (h', some q') ∧
      chain_values 4 h' q'.head = some vs ∧
      List.Chain' (fun x y => strcasecmp x y ≤ 0) vs ∧
      List.Pairwise (fun x y => strcasecmp x y ≤ 0) vs) ∧
    read_queue 4 (q_sort 4 ex_fruit_heap (some ex_fruit_queue)) =
      some [text "Apple", text "banana", text "cherry"] :=
  ⟨rfl, by decide,
    q_sort_ascending ex_fruit_heap ex_fruit_queue [1, 2, 3] 4 (by decide) (by decide),
    by decide⟩

/-- C2: for every queue satisfying the data-model invariant, `q_sort` keeps the
elements and the count: the chain afterwards is a permutation of the chain
before, no text is changed, the texts read from head to tail are a permutation
of those read before, and `size` is unchanged. -/
theorem q_sort_permutation (h : Heap) (q : queue_t) (l : List Ptr) (fuel : Nat)
    (hinv : queue_inv h q l) (hf : l.length + 1 ≤ fuel) :
    ∃ h' q' l' vs vs', q_sort fuel h (some q) = some (h', some q') ∧
      lseg h' q'.head l' none ∧ l'.Perm l ∧ same_values h h' ∧
      chain_values fuel h q.head = some vs ∧
      chain_values fuel h' q'.head = some vs' ∧
      vs'.Perm vs ∧ vs'.length = vs.length ∧ q'.size = q.size := by
  obtain ⟨h', q', hrun, hinv', _, hsv, hsize⟩ := q_sort_spec h q l fuel hinv hf
  have hperm := List.mergeSort_perm l (ele_le h)
  have hread := chain_values_of_lseg hinv'.1 fuel (by rw [hperm.length_eq]; exact hf)
  have hread0 := chain_values_of_lseg hinv.1 fuel hf
  rw [map_value_of_eq hsv] at hread
  exact ⟨h', q', _, _, _, hrun, hinv'.1, hperm, hsv, hread0, hread, hperm.map _,
    (hperm.map _).length_eq, hsize⟩

/-- The witness of C2, on the queue "banana", "Apple", "cherry". -/
theorem q_sort_permutation_witness :
    queue_inv ex_fruit_heap ex_fruit_queue [1, 2, 3] ∧
    (∃ h' q' l' vs vs', q_sort 4 ex_fruit_heap (some ex_fruit_queue) = some (h', some q') ∧
      lseg h' q'.head l' none ∧ l'.Perm [1, 2, 3] ∧ same_values ex_fruit_heap h' ∧
      chain_values 4 ex_fruit_heap ex_fruit_queue.head = some vs ∧
      chain_values 4 h' q'.head = some vs' ∧
      vs'.Perm vs ∧ vs'.length = vs.length ∧ q'.size = ex_fruit_queue.size) ∧
    read_queue 4 (some (ex_fruit_heap, some ex_fruit_queue)) =
      some [text "banana", text "Apple", text "cherry"] ∧
    (q_sort 4 ex_fruit_heap (some ex_fruit_queue)).map (fun r => r.2.map (fun q => q.size)) =
      some (some 3) :=
  ⟨by decide,
    q_sort_permutation ex_fruit_heap ex_fruit_queue [1, 2, 3] 4 (by decide) (by decide),
    by decide, by decide⟩

/-- C3: `q_sort` is stable. For every queue satisfying the data-model
invariant, two elements whose texts compare equal under `strcasecmp` keep their
relative order, and the chain after `q_sort` is the insertion sort (the
reference stable sort) of the chain before it, on the elements as well as on
the texts read. -/
theorem q_sort_stable (h : Heap) (q : queue_t) (l : List Ptr) (fuel : Nat)
    (hinv : queue_inv h q l) (hf : l.length + 1 ≤ fuel) :
    ∃ h' q' l', q_sort fuel h (some q) = some (h', some q') ∧
      lseg h' q'.head l' none ∧ same_values h h' ∧
      (∀ a b, List.Sublist [a, b] l → strcasecmp (value_of h a) (value_of h b) = 0 →
        List.Sublist [a, b] l') ∧
      l' = List.insertionSort
        (fun a b => strcasecmp (value_of h a) (value_of h b) ≤ 0) l ∧
      chain_values fuel h' q'.head =
        some (List.insertionSort (fun x y => strcasecmp x y ≤ 0) (l.map (value_of h))) := by
  obtain ⟨h', q', hrun, hinv', _, hsv, _⟩ := q_sort_spec h q l fuel hinv hf
  have hperm := List.mergeSort_perm l (ele_le h)
  have hread := chain_values_of_lseg hinv'.1 fuel (by rw [hperm.length_eq]; exact hf)
  rw [map_value_of_eq hsv] at hread
  have hins : List.mergeSort l (ele_le h) = List.insertionSort
      (fun a b => strcasecmp (value_of h a) (value_of h b) ≤ 0) l := by
    rw [mergeSort_eq_insertionSort (ele_le h) (ele_le_trans h) (ele_le_of_not h) l.length l
      (Nat.le_refl _)]
    apply insertionSort_congr
    intro a b
    simp only [ele_le, decide_eq_true_eq]
    omega
  refine ⟨h', q', _, hrun, hinv'.1, hsv, ?_, hins, ?_⟩
  · intro a b hab he
    exact List.pair_sublist_mergeSort (ele_le_trans h) (ele_le_total h)
      (by simp only [ele_le, decide_eq_true_eq]; omega) hab
  · rw [hread, hins]
    congr 1
    exact List.map_insertionSort (fun a b => strcasecmp (value_of h a) (value_of h b) ≤ 0)
      (fun x y => strcasecmp x y ≤ 0) (value_of h) l (fun a _ b _ => Iff.rfl)

/-- The witness of C3: of "apple", "b", "Apple" the first and the third compare
equal; sorting yields "apple", "Apple", "b". -/
theorem q_sort_stable_witness :
    queue_inv ex_ties_heap ex_ties_queue [1, 2, 3] ∧
    (∃ h' q' l', q_sort 4 ex_ties_heap (some ex_ties_queue) = some (h', some q') ∧
      lseg h' q'.head l' none ∧ same_values ex_ties_heap h' ∧
      (∀ a b, List.Sublist [a, b] [1, 2, 3] →
        strcasecmp (value_of ex_ties_heap a) (value_of ex_ties_heap b) = 0 →
        List.Sublist [a, b] l') ∧
      l' = List.insertionSort
        (fun a b => strcasecmp (value_of ex_ties_heap a) (value_of ex_ties_heap b) ≤ 0)
        [1, 2, 3] ∧
      chain_values 4 h' q'.head =
        some (List.insertionSort (fun x y => strcasecmp x y ≤ 0)
          ([1, 2, 3].map (value_of ex_ties_heap)))) ∧
    strcasecmp (text "apple") (text "Apple") = 0 ∧
    read_queue 4 (q_sort 4 ex_ties_heap (some ex_ties_queue)) =
      some [text "apple", text "Apple", text "b"] :=
  ⟨by decide,
    q_sort_stable ex_ties_heap ex_ties_queue [1, 2, 3] 4 (by decide) (by decide),
    by decide, by decide⟩

/-! ## The claims on `q_reverse` -/

theorem q_reverse_spec (h : Heap) (q : queue_t) (l : List Ptr) (fuel : Nat)
    (hinv : queue_inv h q l) (hf : l.length + 1 ≤ fuel) (hlen : 2 ≤ l.length) :
    ∃ h', q_reverse fuel h (some q) =
        some (h', some { head := q.tail, tail := q.head, size := q.size }) ∧
      lseg h' q.tail l.reverse none ∧ (∀ p, p ∉ l → h' p = h p) ∧ same_values h h' := by
  obtain ⟨hseg, htail, hsize⟩ := hinv
  obtain ⟨h', r, hrun, hs, hfr, hsv⟩ :=
    q_reverse_loop_spec l h none q.head [] fuel hseg rfl (fun _ _ => List.not_mem_nil _) hf
  rw [List.append_nil] at hs
  have hr : r = q.tail := by
    rw [lseg_head hs, List.head?_reverse, htail]
  subst hr
  refine ⟨h', ?_, hs, hfr, hsv⟩
  have hsz : ¬ q.size < 2 := by rw [hsize]; omega
  simp only [q_reverse, hsz, if_false, hrun]

theorem q_reverse_small (h : Heap) (q : queue_t) (l : List Ptr) (fuel : Nat)
    (hinv : queue_inv h q l) (hlen : l.length < 2) :
    q_reverse fuel h (some q) = some (h, some q) := by
  have hsz : q.size < 2 := by rw [hinv.2.2]; omega
  simp only [q_reverse, hsz, if_true]

/-- C4: for every queue satisfying the data-model invariant with at least 2
elements, `q_reverse` returns (with any fuel above the number of elements), the
chain and the texts read from head to tail are the reverse of those before, the
former tail is head, the former head is tail and has no `next`, `size` is
unchanged and no text is changed; with fewer than 2 elements nothing changes. -/
theorem q_reverse_reverses (h : Heap) (q : queue_t) (l : List Ptr) (fuel : Nat)
    (hinv : queue_inv h q l) (hf : l.length + 1 ≤ fuel) :
    (2 ≤ l.length → ∃ h' q', q_reverse fuel h (some q) = some (h', some q') ∧
      lseg h' q'.head l.reverse none ∧
      chain_values fuel h' q'.head = some (l.map (value_of h)).reverse ∧
      q'.head = q.tail ∧ q'.tail = q.head ∧ load_next h' q'.tail = some none ∧
      q'.size = q.size ∧ same_values h h') ∧
    (l.length < 2 → q_reverse fuel h (some q) = some (h, some q)) := by
  refine ⟨fun hlen => ?_, fun hlen => q_reverse_small h q l fuel hinv hlen⟩
  obtain ⟨h', hrun, hs, _, hsv⟩ := q_reverse_spec h q l fuel hinv hf hlen
  refine ⟨h', _, hrun, hs, ?_, rfl, rfl, ?_, rfl, hsv⟩
  · have := chain_values_of_lseg hs fuel (by simpa using hf)
    rw [this, map_value_of_eq hsv, List.map_reverse]
  · obtain ⟨a, ha⟩ : ∃ a, q.head = some a := by
      rw [lseg_head hinv.1]
      match l, hlen with
      | a :: _, _ => exact ⟨a, rfl⟩
    show load_next h' q.head = some none
    rw [ha]
    refine lseg_getLast hs ?_
    rw [List.getLast?_reverse, ← lseg_head hinv.1, ha]

/-- The witness of C4: the queue c, b, a built by inserting "a", "b", "c" at the
head becomes a, b, c. -/
theorem q_reverse_reverses_witness :
    ex_cba.2 = (some ex_cba_queue, true) ∧
    queue_inv ex_cba.1 ex_cba_queue [3, 2, 1] ∧
    ((2 ≤ [3, 2, 1].length → ∃ h' q', q_reverse 4 ex_cba.1 (some ex_cba_queue) = some (h', some q') ∧
      lseg h' q'.head [3, 2, 1].reverse none ∧
      chain_values 4 h' q'.head = some ([3, 2, 1].map (value_of ex_cba.1)).reverse ∧
      q'.head = ex_cba_queue.tail ∧ q'.tail = ex_cba_queue.head ∧
      load_next h' q'.tail = some none ∧
      q'.size = ex_cba_queue.size ∧ same_values ex_cba.1 h') ∧
    ([3, 2, 1].length < 2 →
      q_reverse 4 ex_cba.1 (some ex_cba_queue) = some (ex_cba.1, some ex_cba_queue))) ∧
    read_queue 4 (some (ex_cba.1, some ex_cba_queue)) = some [text "c", text "b", text "a"] ∧
    read_queue 4 (q_reverse 4 ex_cba.1 (some ex_cba_queue)) =
      some [text "a", text "b", text "c"] :=
  ⟨by decide, by decide,
    q_reverse_reverses ex_cba.1 ex_cba_queue [3, 2, 1] 4 (by decide) (by decide),
    by decide, by decide⟩

/-- C5: `q_reverse` is an involution. For every queue satisfying the data-model
invariant, `q_reverse` applied twice returns the heap and the queue it started
from: every element, every link, `head`, `tail` and `size` are restored, and so
is the sequence read from head to tail. -/
theorem q_reverse_involution (h : Heap) (q : queue_t) (l : List Ptr) (fuel : Nat)
    (hinv : queue_inv h q l) (hf : l.length + 1 ≤ fuel) :
    ∃ h1 q1, q_reverse fuel h (some q) = some (h1, some q1) ∧
      q_reverse fuel h1 (some q1) = some (h, some q) ∧
      read_queue fuel (q_reverse fuel h1 (some q1)) = some (l.map (value_of h)) := by
  have hread : read_queue fuel (some (h, some q)) = some (l.map (value_of h)) :=
    chain_values_of_lseg hinv.1 fuel hf
  by_cases hlen : l.length < 2
  · have e := q_reverse_small h q l fuel hinv hlen
    exact ⟨h, q, e, e, by rw [e]; exact hread⟩
  · have hlen2 : 2 ≤ l.length := by omega
    obtain ⟨h1, hrun1, hs1, hfr1, hsv1⟩ := q_reverse_spec h q l fuel hinv hf hlen2
    have hinv1 : queue_inv h1 { head := q.tail, tail := q.head, size := q.size } l.reverse := by
      refine ⟨hs1, ?_, ?_⟩
      · show q.head = l.reverse.getLast?
        rw [List.getLast?_reverse]; exact lseg_head hinv.1
      · show q.size = (l.reverse.length : Int)
        rw [List.length_reverse]; exact hinv.2.2
    obtain ⟨h2, hrun2, hs2, hfr2, hsv2⟩ := q_reverse_spec h1 _ l.reverse fuel hinv1
      (by simpa using hf) (by simpa using hlen2)
    simp only [List.reverse_reverse] at hs2
    have hh : h2 = h := by
      funext p
      by_cases hp : p ∈ l
      · exact lseg_agree hinv.1 hs2 (same_values_trans hsv1 hsv2) p hp
      · rw [hfr2 p (by simpa using hp), hfr1 p hp]
    have e2 : q_reverse fuel h1 (some { head := q.tail, tail := q.head, size := q.size }) =
        some (h, some q) := by
      rw [hrun2, hh]
    exact ⟨h1, _, hrun1, e2, by rw [e2]; exact hread⟩

/-- The witness of C5, on the queue c, b, a. -/
theorem q_reverse_involution_witness :
    queue_inv ex_cba.1 ex_cba_queue [3, 2, 1] ∧
    (∃ h1 q1, q_reverse 4 ex_cba.1 (some ex_cba_queue) = some (h1, some q1) ∧
      q_reverse 4 h1 (some q1) = some (ex_cba.1, some ex_cba_queue) ∧
      read_queue 4 (q_reverse 4 h1 (some q1)) = some ([3, 2, 1].map (value_of ex_cba.1))) ∧
    ([3, 2, 1].map (value_of ex_cba.1)) = [text "c", text "b", text "a"] :=
  ⟨by decide, q_reverse_involution ex_cba.1 ex_cba_queue [3, 2, 1] 4 (by decide) (by decide),
    by decide⟩

/-! ## The claims on `q_remove_head` -/

theorem remove_copy_len_eq (len bufsize : Nat) (hb1 : 1 ≤ bufsize) (hb3 : bufsize ≤ SIZE_MAX) :
    remove_copy_len len bufsize = min len (bufsize - 1) := by
  unfold remove_copy_len
  unfold SIZE_MAX at *
  split <;> omega

theorem copy_out_spec (v b : List Nat) (k : Nat) (hk : k ≤ v.length) (hkb : k < b.length) :
    (match memcpy b (c_str v) k with
      | none => none
      | some b1 => (store_byte b1 k 0).map some) =
      some (some (v.take k ++ 0 :: b.drop (k + 1))) := by
  have h1 : k ≤ (c_str v).length ∧ k ≤ b.length := by
    simp only [c_str, List.length_append, List.length_singleton]; omega
  have htake : (c_str v).take k = v.take k := by
    simp only [c_str]
    rw [List.take_append_of_le_length hk]
  have hlen : (v.take k).length = k := by
    rw [List.length_take]; omega
  have hlen2 : k < (v.take k ++ b.drop k).length := by
    rw [List.length_append, hlen, List.length_drop]; omega
  have hd : List.drop (k + 1) (v.take k ++ b.drop k) = b.drop (k + 1) := by
    have e0 : List.drop (k + 1) (List.take k v) = [] := by
      rw [List.drop_eq_nil_iff, hlen]; omega
    have e1 : k + 1 - k = 1 := by omega
    rw [List.drop_append_eq_append_drop, hlen, e0, List.nil_append, e1, List.drop_drop]
  simp only [memcpy, h1, and_self, if_true, htake, store_byte, hlen2, Option.map_some']
  rw [List.set_eq_take_append_cons_drop, if_pos hlen2, List.take_left' hlen, hd]

theorem q_remove_head_eq (h : Heap) (q : queue_t) (a : Ptr) (as : List Ptr)
    (sp : Option (List Nat)) (bufsize : Nat) (hinv : queue_inv h q (a :: as))
    (hsp : ∀ b, sp = some b → 1 ≤ bufsize ∧ bufsize ≤ b.length ∧ bufsize ≤ SIZE_MAX) :
    ∃ n, h a = some n ∧ lseg h n.next as none ∧
      q_remove_head h (some q) sp bufsize =
        some (heap_free h a,
          some { head := n.next, tail := if as = [] then n.next else q.tail,
                 size := q.size - 1 },
          sp.map (fun b => n.value.take (min (strlen n.value) (bufsize - 1)) ++
            0 :: b.drop (min (strlen n.value) (bufsize - 1) + 1)),
          true) := by
  obtain ⟨hseg, htail, hsize⟩ := hinv
  obtain ⟨ha, n, hn, hrest⟩ := lseg_cons.mp hseg
  refine ⟨n, hn, hrest, ?_⟩
  have hsz : ¬ q.size = 0 := by rw [hsize]; simp; omega
  have hsz2 : q.size - 1 = 0 ↔ as = [] := by
    rw [hsize]
    simp only [List.length_cons, Nat.cast_add, Nat.cast_one, add_sub_cancel_right,
      Nat.cast_eq_zero, List.length_eq_zero]
  cases sp with
  | none =>
    simp only [q_remove_head, hsz, if_false, ha, hn, Option.map_none']
    by_cases has : as = []
    · simp [hsz2.mpr has, has]
    · have : ¬ q.size - 1 = 0 := fun e => has (hsz2.mp e)
      simp [this, has]
  | some b =>
    obtain ⟨hb1, hb2, hb3⟩ := hsp b rfl
    have hk := remove_copy_len_eq (strlen n.value) bufsize hb1 hb3
    have hcopy := copy_out_spec n.value b (min (strlen n.value) (bufsize - 1))
      (Nat.min_le_left _ _) (by have := Nat.min_le_right (strlen n.value) (bufsize - 1); omega)
    simp only [q_remove_head, hsz, if_false, ha, hn, hk, hcopy, Option.map_some']
    by_cases has : as = []
    · simp [hsz2.mpr has, has]
    · have : ¬ q.size - 1 = 0 := fun e => has (hsz2.mp e)
      simp [this, has]

/-- C6: for every non-empty queue, every provided buffer `b` and every capacity
`1 <= bufsize` that the buffer has, `q_remove_head` returns true and the buffer
then holds the first `min(len, bufsize - 1)` bytes of the head's text, a
terminator at that index, and its old bytes past it: the whole text when
`len < bufsize`, its first `bufsize - 1` bytes otherwise. -/
theorem q_remove_head_copy (h : Heap) (q : queue_t) (a : Ptr) (as : List Ptr) (b : List Nat)
    (bufsize : Nat) (hinv : queue_inv h q (a :: as)) (hb1 : 1 ≤ bufsize)
    (hb2 : bufsize ≤ b.length) (hb3 : bufsize ≤ SIZE_MAX) :
    ∃ h' q' b', q_remove_head h (some q) (some b) bufsize = some (h', some q', some b', true) ∧
      b' = (value_of h a).take (min (strlen (value_of h a)) (bufsize - 1)) ++
        0 :: b.drop (min (strlen (value_of h a)) (bufsize - 1) + 1) ∧
      b'.length = b.length ∧
      (strlen (value_of h a) < bufsize →
        b'.take (strlen (value_of h a) + 1) = value_of h a ++ [0]) ∧
      (bufsize ≤ strlen (value_of h a) →
        b'.take bufsize = (value_of h a).take (bufsize - 1) ++ [0]) := by
  obtain ⟨n, hn, _, hrun⟩ := q_remove_head_eq h q a as (some b) bufsize hinv
    (fun b0 hb0 => by cases hb0; exact ⟨hb1, hb2, hb3⟩)
  have hv : value_of h a = n.value := by simp [value_of, hn]
  rw [hv]
  rw [Option.map_some'] at hrun
  refine ⟨_, _, _, hrun, rfl, ?_, ?_, ?_⟩
  · simp only [List.length_append, List.length_take, List.length_cons, List.length_drop, strlen]
    omega
  · intro hlt
    have hk : min (strlen n.value) (bufsize - 1) = n.value.length := by
      simp only [strlen] at hlt ⊢; omega
    rw [hk, List.take_of_length_le (Nat.le_refl _)]
    have : (n.value ++ 0 :: List.drop (n.value.length + 1) b) =
        (n.value ++ [0]) ++ List.drop (n.value.length + 1) b := by simp
    rw [this, strlen, List.take_left' (by simp)]
  · intro hge
    have hk : min (strlen n.value) (bufsize - 1) = bufsize - 1 := by
      simp only [strlen] at hge ⊢; omega
    rw [hk]
    have : (List.take (bufsize - 1) n.value ++ 0 :: List.drop (bufsize - 1 + 1) b) =
        (List.take (bufsize - 1) n.value ++ [0]) ++ List.drop (bufsize - 1 + 1) b := by simp
    rw [this, List.take_left']
    simp only [List.length_append, List.length_take, List.length_singleton, strlen] at hge ⊢
    omega

/-- The witness of C6: "abcdefgh" removed into a buffer of 4 bytes (holding
"xxxx") yields "abc" and the terminator. -/
theorem q_remove_head_copy_witness :
    ex_long.2 = (some ex_long_queue, true) ∧
    queue_inv ex_long.1 ex_long_queue [1] ∧
    (∃ h' q' b', q_remove_head ex_long.1 (some ex_long_queue) (some (text "xxxx")) 4 =
        some (h', some q', some b', true) ∧
      b' = (value_of ex_long.1 1).take (min (strlen (value_of ex_long.1 1)) (4 - 1)) ++
        0 :: (text "xxxx").drop (min (strlen (value_of ex_long.1 1)) (4 - 1) + 1) ∧
      b'.length = (text "xxxx").length ∧
      (strlen (value_of ex_long.1 1) < 4 →
        b'.take (strlen (value_of ex_long.1 1) + 1) = value_of ex_long.1 1 ++ [0]) ∧
      (4 ≤ strlen (value_of ex_long.1 1) →
        b'.take 4 = (value_of ex_long.1 1).take (4 - 1) ++ [0])) ∧
    (q_remove_head ex_long.1 (some ex_long_queue) (some (text "xxxx")) 4).map
      (fun r => (r.2.2.1, r.2.2.2)) = some (some (text "abc" ++ [0]), true) :=
  ⟨by decide, by decide,
    q_remove_head_copy ex_long.1 ex_long_queue 1 [] (text "xxxx") 4 (by decide) (by decide)
      (by decide) (by decide),
    by decide⟩

/-- C7, the code at the failing input: on the queue holding "a", with a buffer
and `bufsize == 0`, the length `q_remove_head` passes to `memcpy` is
`SIZE_MAX = 2^64 - 1`, not 0, so that the copy and the terminator written at
index `SIZE_MAX` fall outside the buffer (here of capacity 0, and of 4 bytes):
the call has no defined result. -/
theorem q_remove_head_zero_capacity :
    ex_one.2 = (some ex_one_queue, true) ∧
    queue_inv ex_one.1 ex_one_queue [1] ∧
    remove_copy_len (strlen (value_of ex_one.1 1)) 0 = 18446744073709551615 ∧
    q_remove_head ex_one.1 (some ex_one_queue) (some []) 0 = none ∧
    q_remove_head ex_one.1 (some ex_one_queue) (some (text "xxxx")) 0 = none := by
  refine ⟨by decide, by decide, by decide, ?_, ?_⟩ <;> rfl

/-- C8: for every queue with `size == 0`, every buffer and every capacity,
`q_remove_head` returns false and leaves the heap, the queue (`head`, `tail`,
`size`) and the buffer as they were. -/
theorem q_remove_head_empty (h : Heap) (q : queue_t) (sp : Option (List Nat)) (bufsize : Nat)
    (hq : q.size = 0) :
    q_remove_head h (some q) sp bufsize = some (h, some q, sp, false) := by
  simp [q_remove_head, hq]

/-- The witness of C8: the new queue and a buffer holding "xxxx". -/
theorem q_remove_head_empty_witness :
    q_new true = some ex_empty_queue ∧ ex_empty_queue.size = 0 ∧
    q_remove_head heap_empty (some ex_empty_queue) (some (text "xxxx")) 4 =
      some (heap_empty, some ex_empty_queue, some (text "xxxx"), false) :=
  ⟨by decide, by decide,
    q_remove_head_empty heap_empty ex_empty_queue (some (text "xxxx")) 4 (by decide)⟩

/-- What `q_remove_head` does in every call other than the failing one of
`q_remove_head_buffer_zero`: for every non-empty queue satisfying the
data-model invariant, `q_remove_head` (with no buffer, or with a buffer of
capacity `1 <= bufsize`) returns true; the chain afterwards is the chain before without
its first element, the other elements being untouched and the first one freed;
`head` is the former head's `next`, `size` is one less, `tail` is unchanged when
elements remain, and `head` and `tail` are `NULL` when `size` becomes 0. -/
theorem q_remove_head_removes (h : Heap) (q : queue_t) (a : Ptr) (as : List Ptr)
    (sp : Option (List Nat)) (bufsize : Nat) (hinv : queue_inv h q (a :: as))
    (hsp : ∀ b, sp = some b → 1 ≤ bufsize ∧ bufsize ≤ b.length ∧ bufsize ≤ SIZE_MAX) :
    ∃ h' q' sp', q_remove_head h (some q) sp bufsize = some (h', some q', sp', true) ∧
      queue_inv h' q' as ∧
      chain_values (as.length + 1) h' q'.head = some (as.map (value_of h)) ∧
      load_next h q.head = some q'.head ∧
      q'.size = q.size - 1 ∧
      (q'.size ≠ 0 → q'.tail = q.tail) ∧
      (q'.size = 0 → q'.head = none ∧ q'.tail = none) ∧
      (∀ p, p ≠ a → h' p = h p) ∧ h' a = none := by
  obtain ⟨n, hn, hrest, hrun⟩ := q_remove_head_eq h q a as sp bufsize hinv hsp
  obtain ⟨hseg, htail, hsize⟩ := hinv
  have hnd := lseg_nodup hseg
  have haas : a ∉ as := (List.nodup_cons.mp hnd).1
  have hfr : ∀ p, p ≠ a → heap_free h a p = h p := fun p hp => by simp [heap_free, hp]
  have hseg' : lseg (heap_free h a) n.next as none :=
    lseg_frame (fun x hx => hfr x (fun e => haas (e ▸ hx))) hrest
  have hsz2 : q.size - 1 = (as.length : Int) := by
    rw [hsize]; simp
  have hvals : as.map (value_of (heap_free h a)) = as.map (value_of h) := by
    apply List.map_congr_left
    intro x hx
    simp only [value_of, hfr x (fun e => haas (e ▸ hx))]
  refine ⟨_, _, _, hrun, ⟨hseg', ?_, hsz2⟩, ?_, ?_, rfl, ?_, ?_, hfr, by simp [heap_free]⟩
  · show (if as = [] then n.next else q.tail) = as.getLast?
    by_cases has : as = []
    · subst has
      rw [if_pos rfl]
      exact lseg_nil.mp hrest
    · rw [if_neg has, htail]
      match as, has with
      | b :: bs, _ => exact List.getLast?_cons_cons
  · rw [chain_values_of_lseg hseg' _ (Nat.le_refl _), hvals]
  · rw [(lseg_cons.mp hseg).1]
    exact load_next_spec hn
  · intro hne
    have has : as ≠ [] := by
      intro e
      apply hne
      show q.size - 1 = 0
      rw [hsz2, e]; rfl
    show (if as = [] then n.next else q.tail) = q.tail
    rw [if_neg has]
  · intro hz
    have has : as = [] := by
      have hz' : q.size - 1 = 0 := hz
      rw [hsz2] at hz'
      exact List.length_eq_zero.mp (by exact_mod_cast hz')
    subst has
    have hnn : n.next = none := lseg_nil.mp hrest
    exact ⟨hnn, by show (if ([] : List Ptr) = [] then n.next else q.tail) = none; rw [if_pos rfl, hnn]⟩

/-- An instance of `q_remove_head_removes`: removing the head of the queue
c, b, a, with no buffer, leaves b, a. -/
theorem q_remove_head_removes_witness :
    queue_inv ex_cba.1 ex_cba_queue [3, 2, 1] ∧
    (∃ h' q' sp', q_remove_head ex_cba.1 (some ex_cba_queue) none 0 =
        some (h', some q', sp', true) ∧
      queue_inv h' q' [2, 1] ∧
      chain_values ([2, 1].length + 1) h' q'.head = some ([2, 1].map (value_of ex_cba.1)) ∧
      load_next ex_cba.1 ex_cba_queue.head = some q'.head ∧
      q'.size = ex_cba_queue.size - 1 ∧
      (q'.size ≠ 0 → q'.tail = ex_cba_queue.tail) ∧
      (q'.size = 0 → q'.head = none ∧ q'.tail = none) ∧
      (∀ p, p ≠ 3 → h' p = ex_cba.1 p) ∧ h' 3 = none) ∧
    (q_remove_head ex_cba.1 (some ex_cba_queue) none 0).map (fun r => (r.2.1, r.2.2.2)) =
      some (some { head := some 2, tail := some 1, size := 2 }, true) ∧
    ((q_remove_head ex_cba.1 (some ex_cba_queue) none 0).bind
      (fun r => read_queue 3 (some (r.1, r.2.1)))) = some [text "b", text "a"] :=
  ⟨by decide,
    q_remove_head_removes ex_cba.1 ex_cba_queue 3 [2, 1] none 0 (by decide)
      (fun b hb => by cases hb),
    by decide, by decide⟩

/-! ## The claims on `q_insert_head` -/

/-- C10: for every queue satisfying the data-model invariant and every text
`s`, when both allocations succeed (the element at a fresh address `p`)
`q_insert_head` returns true; the chain afterwards is the new element followed
by the chain before, the texts read are `s` followed by those read before,
`size` is one more, the new element is `head`, it is `tail` as well when the
queue was empty, and `tail` is unchanged otherwise. -/
theorem q_insert_head_inserts (h : Heap) (q : queue_t) (l : List Ptr) (s : Text) (p : Ptr)
    (hinv : queue_inv h q l) (hfresh : h p = none) :
    ∃ h' q', q_insert_head h (some q) s (some p) true = (h', some q', true) ∧
      queue_inv h' q' (p :: l) ∧
      chain_values (l.length + 2) h' q'.head = some (s :: l.map (value_of h)) ∧
      q'.size = q.size + 1 ∧ q'.head = some p ∧
      (l = [] → q'.tail = some p) ∧ (l ≠ [] → q'.tail = q.tail) ∧
      h' p = some { value := s, next := q.head } ∧ (∀ x, x ≠ p → h' x = h x) := by
  obtain ⟨hseg, htail, hsize⟩ := hinv
  have hpl : p ∉ l := by
    intro hp
    obtain ⟨n, hn⟩ := lseg_alloc hseg hp
    rw [hfresh] at hn
    cases hn
  have hfr : ∀ x, x ≠ p → heap_write h p { value := s, next := q.head } x = h x :=
    fun x hx => heap_write_other h _ hx
  have hseg' : lseg (heap_write h p { value := s, next := q.head }) (some p) (p :: l) none := by
    rw [lseg_cons]
    exact ⟨rfl, _, heap_write_same h p _,
      lseg_frame (fun x hx => hfr x (fun e => hpl (e ▸ hx))) hseg⟩
  have hvals : l.map (value_of (heap_write h p { value := s, next := q.head })) =
      l.map (value_of h) := by
    apply List.map_congr_left
    intro x hx
    simp only [value_of, hfr x (fun e => hpl (e ▸ hx))]
  have hvp : value_of (heap_write h p { value := s, next := q.head }) p = s := by
    simp [value_of, heap_write]
  by_cases hl : l = []
  · subst hl
    have ht : q.tail = none := htail
    refine ⟨_, { head := some p, tail := some p, size := q.size + 1 }, ?_, ⟨hseg', rfl, ?_⟩, ?_,
      rfl, rfl, fun _ => rfl, fun hc => absurd rfl hc, heap_write_same h p _, hfr⟩
    · simp [q_insert_head, ht]
    · show q.size + 1 = _
      rw [hsize]; simp
    · rw [chain_values_of_lseg hseg' _ (by simp), List.map_cons, hvp, hvals]
  · have ht : q.tail ≠ none := by
      rw [htail]
      match l, hl with
      | [b], _ => simp
      | b :: c :: bs, _ => rw [List.getLast?_cons_cons]; simp
    refine ⟨_, { head := some p, tail := q.tail, size := q.size + 1 }, ?_, ⟨hseg', ?_, ?_⟩, ?_,
      rfl, rfl, fun hc => absurd hc hl, fun _ => rfl, heap_write_same h p _, hfr⟩
    · simp [q_insert_head, ht]
    · show q.tail = (p :: l).getLast?
      rw [htail]
      match l, hl with
      | b :: bs, _ => exact List.getLast?_cons_cons.symm
    · show q.size + 1 = _
      rw [hsize]; simp
    · rw [chain_values_of_lseg hseg' _ (by simp), List.map_cons, hvp, hvals]

/-- The witness of C10: "d" inserted at the head of the queue c, b, a, the new
element being allocated at the address 4, gives d, c, b, a; and "a" inserted
into the new queue makes the element both head and tail. -/
theorem q_insert_head_inserts_witness :
    queue_inv ex_cba.1 ex_cba_queue [3, 2, 1] ∧ ex_cba.1 4 = none ∧
    (∃ h' q', q_insert_head ex_cba.1 (some ex_cba_queue) (text "d") (some 4) true =
        (h', some q', true) ∧
      queue_inv h' q' (4 :: [3, 2, 1]) ∧
      chain_values ([3, 2, 1].length + 2) h' q'.head =
        some (text "d" :: [3, 2, 1].map (value_of ex_cba.1)) ∧
      q'.size = ex_cba_queue.size + 1 ∧ q'.head = some 4 ∧
      ([3, 2, 1] = [] → q'.tail = some 4) ∧ ([3, 2, 1] ≠ [] → q'.tail = ex_cba_queue.tail) ∧
      h' 4 = some { value := text "d", next := ex_cba_queue.head } ∧
      (∀ x, x ≠ 4 → h' x = ex_cba.1 x)) ∧
    (q_insert_head ex_cba.1 (some ex_cba_queue) (text "d") (some 4) true).2 =
      (some { head := some 4, tail := some 1, size := 4 }, true) ∧
    read_queue 5 (some ((q_insert_head ex_cba.1 (some ex_cba_queue) (text "d") (some 4) true).1,
      (q_insert_head ex_cba.1 (some ex_cba_queue) (text "d") (some 4) true).2.1)) =
      some [text "d", text "c", text "b", text "a"] ∧
    ex_one.2 = (some { head := some 1, tail := some 1, size := 1 }, true) :=
  ⟨by decide, by decide,
    q_insert_head_inserts ex_cba.1 ex_cba_queue [3, 2, 1] (text "d") 4 (by decide) (by decide),
    by decide, by decide, by decide⟩


/-! ## The insertions in closed form -/

theorem getLast?_ne_none {l : List Ptr} (hl : l ≠ []) : l.getLast? ≠ none := by
  match l, hl with
  | [b], _ => simp
  | b :: c :: bs, _ => rw [List.getLast?_cons_cons]; simp

theorem q_insert_head_eq (h : Heap) (q : queue_t) (l : List Ptr) (s : Text) (p : Ptr)
    (hinv : queue_inv h q l) (hfresh : h p = none) :
    q_insert_head h (some q) s (some p) true =
        (heap_write h p { value := s, next := q.head },
          some { head := some p, tail := if l = [] then some p else q.tail,
                 size := q.size + 1 }, true) ∧
      queue_inv (heap_write h p { value := s, next := q.head })
        { head := some p, tail := if l = [] then some p else q.tail, size := q.size + 1 }
        (p :: l) ∧
      p ∉ l := by
  obtain ⟨hseg, htail, hsize⟩ := hinv
  have hpl : p ∉ l := by
    intro hp
    obtain ⟨n, hn⟩ := lseg_alloc hseg hp
    rw [hfresh] at hn
    cases hn
  have hseg' : lseg (heap_write h p { value := s, next := q.head }) (some p) (p :: l) none := by
    rw [lseg_cons]
    exact ⟨rfl, _, heap_write_same h p _,
      lseg_frame (fun x hx => heap_write_other h _ (fun e => hpl (e ▸ hx))) hseg⟩
  have hsz : q.size + 1 = ((p :: l).length : Int) := by rw [hsize]; simp
  by_cases hl : l = []
  · subst hl
    have ht : q.tail = none := htail
    refine ⟨?_, ⟨hseg', ?_, hsz⟩, hpl⟩
    · simp [q_insert_head, ht]
    · simp
  · have ht : q.tail ≠ none := by rw [htail]; exact getLast?_ne_none hl
    refine ⟨?_, ⟨hseg', ?_, hsz⟩, hpl⟩
    · simp [q_insert_head, ht, hl]
    · show (if l = [] then some p else q.tail) = (p :: l).getLast?
      rw [if_neg hl, htail]
      match l, hl with
      | b :: bs, _ => exact List.getLast?_cons_cons.symm

theorem q_insert_tail_eq (h : Heap) (q : queue_t) (l : List Ptr) (s : Text) (p : Ptr)
    (hinv : queue_inv h q l) (hfresh : h p = none) :
    ∃ h', q_insert_tail h (some q) s (some p) true =
        some (h', some { head := if l = [] then some p else q.head, tail := some p,
                         size := q.size + 1 }, true) ∧
      queue_inv h'
        { head := if l = [] then some p else q.head, tail := some p, size := q.size + 1 }
        (l ++ [p]) ∧
      p ∉ l ∧ h' p = some { value := s, next := none } ∧
      (∀ x, x ≠ p → some x ≠ q.tail → h' x = h x) ∧
      (∀ x, x ≠ p → value_of h' x = value_of h x) := by
  obtain ⟨hseg, htail, hsize⟩ := hinv
  have hpl : p ∉ l := by
    intro hp
    obtain ⟨n, hn⟩ := lseg_alloc hseg hp
    rw [hfresh] at hn
    cases hn
  have hsz : q.size + 1 = ((l ++ [p]).length : Int) := by rw [hsize]; simp
  by_cases hl : l = []
  · subst hl
    have ht : q.tail = none := htail
    refine ⟨heap_write h p { value := s, next := none }, ?_, ⟨?_, ?_, hsz⟩, hpl,
      heap_write_same h p _, fun x hx _ => heap_write_other h _ hx, ?_⟩
    · simp [q_insert_tail, ht]
    · show lseg _ (some p) [p] none
      rw [lseg_cons]
      exact ⟨rfl, _, heap_write_same h p _, rfl⟩
    · simp
    · intro x hx
      simp only [value_of, heap_write_other h _ hx]
  · obtain ⟨A, t, rfl⟩ : ∃ A t, l = A ++ [t] := by
      rcases List.eq_nil_or_concat l with e | ⟨A, b, e⟩
      · exact absurd e hl
      · exact ⟨A, b, by simpa using e⟩
    have ht : q.tail = some t := by rw [htail]; simp
    have hnd := lseg_nodup hseg
    have htA : t ∉ A := by
      intro hc
      exact (List.nodup_append.mp hnd).2.2 hc (List.mem_singleton_self t)
    have hpt : p ≠ t := fun e => hpl (by simp [e])
    have hpA : p ∉ A := fun hc => hpl (List.mem_append_left _ hc)
    obtain ⟨m, hfront, hback⟩ := lseg_append.mp hseg
    obtain ⟨hm, nt, hnt, hend⟩ := lseg_cons.mp hback
    subst hm
    rw [lseg_nil] at hend
    have hnt1 : heap_write h p { value := s, next := none } t = some nt := by
      rw [heap_write_other h _ hpt.symm]; exact hnt
    refine ⟨heap_write (heap_write h p { value := s, next := none }) t
        { nt with next := some p }, ?_, ⟨?_, ?_, hsz⟩, hpl, ?_, ?_, ?_⟩
    · simp [q_insert_tail, ht, store_next, hnt1, hl]
    · show lseg _ (if A ++ [t] = [] then some p else q.head) (A ++ [t] ++ [p]) none
      rw [if_neg hl, List.append_assoc, lseg_append]
      refine ⟨some t, ?_, ?_⟩
      · refine lseg_frame (fun x hx => ?_) hfront
        have hxt : x ≠ t := fun e => htA (e ▸ hx)
        have hxp : x ≠ p := fun e => hpA (e ▸ hx)
        rw [heap_write_other _ _ hxt, heap_write_other _ _ hxp]
      · show lseg _ (some t) [t, p] none
        rw [lseg_cons]
        refine ⟨rfl, _, heap_write_same _ t _, ?_⟩
        show lseg _ (some p) [p] none
        rw [lseg_cons]
        refine ⟨rfl, { value := s, next := none }, ?_, rfl⟩
        rw [heap_write_other _ _ hpt, heap_write_same]
    · simp
    · rw [heap_write_other _ _ hpt, heap_write_same]
    · intro x hx hxt
      have hxt' : x ≠ t := fun e => hxt (by rw [ht, e])
      rw [heap_write_other _ _ hxt', heap_write_other _ _ hx]
    · intro x hx
      by_cases hxt : x = t
      · subst hxt
        simp [value_of, heap_write, hnt]
      · simp only [value_of, heap_write_other _ _ hxt, heap_write_other _ _ hx]


/-! ## The claims on `q_insert_tail` and on allocation failure -/

/-- C11: for every queue satisfying the data-model invariant and every text
`s`, when both allocations succeed (the element at a fresh address `p`)
`q_insert_tail` returns true; the chain afterwards is the chain before followed
by the new element, the texts read are those read before followed by `s`,
`size` is one more, the new element is `tail` and has no `next`, it is `head`
as well when the queue was empty, and `head` is unchanged otherwise. -/
theorem q_insert_tail_appends (h : Heap) (q : queue_t) (l : List Ptr) (s : Text) (p : Ptr)
    (hinv : queue_inv h q l) (hfresh : h p = none) :
    ∃ h' q', q_insert_tail h (some q) s (some p) true = some (h', some q', true) ∧
      queue_inv h' q' (l ++ [p]) ∧
      chain_values (l.length + 2) h' q'.head = some (l.map (value_of h) ++ [s]) ∧
      q'.size = q.size + 1 ∧ q'.tail = some p ∧ load_next h' (some p) = some none ∧
      (l = [] → q'.head = some p) ∧ (l ≠ [] → q'.head = q.head) := by
  obtain ⟨h', hrun, hinv', hpl, hp, _, hval⟩ := q_insert_tail_eq h q l s p hinv hfresh
  refine ⟨h', _, hrun, hinv', ?_, rfl, rfl, load_next_spec hp, ?_, ?_⟩
  · rw [chain_values_of_lseg hinv'.1 _ (by simp), List.map_append]
    congr 2
    · apply List.map_congr_left
      intro x hx
      exact hval x (fun e => hpl (e ▸ hx))
    · simp [value_of, hp]
  · intro hl
    show (if l = [] then some p else q.head) = some p
    rw [if_pos hl]
  · intro hl
    show (if l = [] then some p else q.head) = q.head
    rw [if_neg hl]

/-- The witness of C11: "d" inserted at the tail of the queue c, b, a, the new
element being allocated at the address 4, gives c, b, a, d; and "a" inserted at
the tail of the new queue makes the element both head and tail. -/
theorem q_insert_tail_appends_witness :
    queue_inv ex_cba.1 ex_cba_queue [3, 2, 1] ∧ ex_cba.1 4 = none ∧
    (∃ h' q', q_insert_tail ex_cba.1 (some ex_cba_queue) (text "d") (some 4) true =
        some (h', some q', true) ∧
      queue_inv h' q' ([3, 2, 1] ++ [4]) ∧
      chain_values ([3, 2, 1].length + 2) h' q'.head =
        some ([3, 2, 1].map (value_of ex_cba.1) ++ [text "d"]) ∧
      q'.size = ex_cba_queue.size + 1 ∧ q'.tail = some 4 ∧
      load_next h' (some 4) = some none ∧
      ([3, 2, 1] = [] → q'.head = some 4) ∧ ([3, 2, 1] ≠ [] → q'.head = ex_cba_queue.head)) ∧
    (q_insert_tail ex_cba.1 (some ex_cba_queue) (text "d") (some 4) true).map (fun r => r.2) =
      some (some { head := some 3, tail := some 4, size := 4 }, true) ∧
    ((q_insert_tail ex_cba.1 (some ex_cba_queue) (text "d") (some 4) true).bind
      (fun r => read_queue 5 (some (r.1, r.2.1)))) =
      some [text "c", text "b", text "a", text "d"] ∧
    (q_insert_tail heap_empty (some ex_empty_queue) (text "a") (some 1) true).map (fun r => r.2) =
      some (some { head := some 1, tail := some 1, size := 1 }, true) :=
  ⟨by decide, by decide,
    q_insert_tail_appends ex_cba.1 ex_cba_queue [3, 2, 1] (text "d") 4 (by decide) (by decide),
    by decide, by decide, by decide⟩

/-- C12: `q_insert_head` and `q_insert_tail` are atomic on allocation failure.
For every queue satisfying the data-model invariant (the element, when it is
allocated, being at a fresh address), each of them returns, and returns false
exactly when the allocation of the element or of its string fails; in that
case the heap and the queue (`head`, `tail`, `size`, every element) are the
ones before the call. -/
theorem insert_alloc_failure (h : Heap) (q : queue_t) (l : List Ptr) (s : Text)
    (newp : Option Ptr) (value_ok : Bool) (hinv : queue_inv h q l)
    (hfresh : ∀ p, newp = some p → h p = none) :
    (((q_insert_head h (some q) s newp value_ok).2.2 = false ↔
        (newp = none ∨ value_ok = false)) ∧
      ((newp = none ∨ value_ok = false) →
        q_insert_head h (some q) s newp value_ok = (h, some q, false))) ∧
    (∃ r, q_insert_tail h (some q) s newp value_ok = some r ∧
      (r.2.2 = false ↔ (newp = none ∨ value_ok = false)) ∧
      ((newp = none ∨ value_ok = false) → r = (h, some q, false))) := by
  cases newp with
  | none =>
    refine ⟨⟨by simp [q_insert_head], fun _ => by simp [q_insert_head]⟩,
      ⟨(h, some q, false), by simp [q_insert_tail], by simp, fun _ => rfl⟩⟩
  | some p =>
    cases value_ok with
    | false =>
      refine ⟨⟨by simp [q_insert_head], fun _ => by simp [q_insert_head]⟩,
        ⟨(h, some q, false), by simp [q_insert_tail], by simp, fun _ => rfl⟩⟩
    | true =>
      have hp := hfresh p rfl
      obtain ⟨hrun, _, _⟩ := q_insert_head_eq h q l s p hinv hp
      obtain ⟨h', hrunt, _⟩ := q_insert_tail_eq h q l s p hinv hp
      refine ⟨⟨by rw [hrun]; simp, fun hc => by simp at hc⟩,
        ⟨_, hrunt, by simp, fun hc => by simp at hc⟩⟩

/-- The witness of C12: on the queue c, b, a the string allocation fails after
the element was allocated at the address 4; both insertions return false and
leave the heap and the queue as they were. -/
theorem insert_alloc_failure_witness :
    queue_inv ex_cba.1 ex_cba_queue [3, 2, 1] ∧
    ((((q_insert_head ex_cba.1 (some ex_cba_queue) (text "d") (some 4) false).2.2 = false ↔
        ((some 4 : Option Ptr) = none ∨ false = false)) ∧
      (((some 4 : Option Ptr) = none ∨ false = false) →
        q_insert_head ex_cba.1 (some ex_cba_queue) (text "d") (some 4) false =
          (ex_cba.1, some ex_cba_queue, false))) ∧
    (∃ r, q_insert_tail ex_cba.1 (some ex_cba_queue) (text "d") (some 4) false = some r ∧
      (r.2.2 = false ↔ ((some 4 : Option Ptr) = none ∨ false = false)) ∧
      (((some 4 : Option Ptr) = none ∨ false = false) →
        r = (ex_cba.1, some ex_cba_queue, false)))) ∧
    q_insert_head ex_cba.1 (some ex_cba_queue) (text "d") none true =
      (ex_cba.1, some ex_cba_queue, false) ∧
    q_insert_tail ex_cba.1 (some ex_cba_queue) (text "d") none true =
      some (ex_cba.1, some ex_cba_queue, false) :=
  ⟨by decide,
    insert_alloc_failure ex_cba.1 ex_cba_queue [3, 2, 1] (text "d") (some 4) false (by decide)
      (fun p hp => by cases hp; decide),
    rfl, rfl⟩


/-! ## The round trip of `q_insert_head` and `q_remove_head` -/

/-- C13: for every queue satisfying the data-model invariant and every text
`s`, a successful `q_insert_head` of `s` (the element at a fresh address)
followed by `q_remove_head` into a buffer of capacity `bufsize` greater than
the length of `s` returns true, the buffer then holds `s` and its terminator
(and its old bytes past them), and the heap and the queue are the ones before
the two calls: the same size and the same sequence from head to tail. -/
theorem insert_remove_roundtrip (h : Heap) (q : queue_t) (l : List Ptr) (s : Text) (p : Ptr)
    (b : List Nat) (bufsize : Nat) (hinv : queue_inv h q l) (hfresh : h p = none)
    (hb1 : strlen s < bufsize) (hb2 : bufsize ≤ b.length) (hb3 : bufsize ≤ SIZE_MAX) :
    ∃ h1 q1 b', q_insert_head h (some q) s (some p) true = (h1, some q1, true) ∧
      q_remove_head h1 (some q1) (some b) bufsize = some (h, some q, some b', true) ∧
      b' = s ++ 0 :: b.drop (strlen s + 1) ∧
      b'.take (strlen s + 1) = s ++ [0] ∧
      q_size (some q1) = q_size (some q) + 1 ∧
      chain_values (l.length + 1) h q.head = some (l.map (value_of h)) := by
  obtain ⟨hins, hinv1, hpl⟩ := q_insert_head_eq h q l s p hinv hfresh
  obtain ⟨n, hn, _, hrem⟩ := q_remove_head_eq _ _ p l (some b) bufsize hinv1
    (fun b0 hb0 => by cases hb0; exact ⟨by omega, hb2, hb3⟩)
  rw [heap_write_same] at hn
  have hnn : n = { value := s, next := q.head } := (Option.some.inj hn).symm
  subst hnn
  have hheap : heap_free (heap_write h p { value := s, next := q.head }) p = h := by
    funext x
    by_cases hx : x = p
    · subst hx; simp [heap_free, hfresh]
    · simp [heap_free, heap_write, hx]
  have hk : min (strlen s) (bufsize - 1) = strlen s := by omega
  have hq : ({ head := q.head, tail := if l = [] then q.head
      else (if l = [] then some p else q.tail), size := q.size + 1 - 1 } : queue_t) = q := by
    have ht : (if l = [] then q.head else (if l = [] then some p else q.tail)) = q.tail := by
      by_cases hl : l = []
      · subst hl
        rw [if_pos rfl]
        have h1 : q.head = none := lseg_nil.mp hinv.1
        have h2 : q.tail = none := hinv.2.1
        rw [h1, h2]
      · rw [if_neg hl, if_neg hl]
    rw [ht]
    cases q
    simp
  simp only [Option.map_some', hk, hheap, hq] at hrem
  have htake : List.take (strlen s) s = s := List.take_of_length_le (Nat.le_refl _)
  rw [htake] at hrem
  refine ⟨_, _, _, hins, hrem, rfl, ?_, rfl, chain_values_of_lseg hinv.1 _ (Nat.le_refl _)⟩
  have : s ++ 0 :: List.drop (strlen s + 1) b = (s ++ [0]) ++ List.drop (strlen s + 1) b := by
    simp
  rw [this, List.take_left' (by simp [strlen])]

/-- The witness of C13: "d" inserted at the head of the queue c, b, a and
removed into a buffer of 4 bytes holding "xxxx". -/
theorem insert_remove_roundtrip_witness :
    queue_inv ex_cba.1 ex_cba_queue [3, 2, 1] ∧ ex_cba.1 4 = none ∧
    (∃ h1 q1 b', q_insert_head ex_cba.1 (some ex_cba_queue) (text "d") (some 4) true =
        (h1, some q1, true) ∧
      q_remove_head h1 (some q1) (some (text "xxxx")) 4 =
        some (ex_cba.1, some ex_cba_queue, some b', true) ∧
      b' = text "d" ++ 0 :: (text "xxxx").drop (strlen (text "d") + 1) ∧
      b'.take (strlen (text "d") + 1) = text "d" ++ [0] ∧
      q_size (some q1) = q_size (some ex_cba_queue) + 1 ∧
      chain_values ([3, 2, 1].length + 1) ex_cba.1 ex_cba_queue.head =
        some ([3, 2, 1].map (value_of ex_cba.1))) ∧
    (q_remove_head (q_insert_head ex_cba.1 (some ex_cba_queue) (text "d") (some 4) true).1
      (q_insert_head ex_cba.1 (some ex_cba_queue) (text "d") (some 4) true).2.1
      (some (text "xxxx")) 4).map (fun r => (r.2.1, r.2.2)) =
      some (some ex_cba_queue, some (text "d" ++ [0] ++ text "xx"), true) :=
  ⟨by decide, by decide,
    insert_remove_roundtrip ex_cba.1 ex_cba_queue [3, 2, 1] (text "d") 4 (text "xxxx") 4
      (by decide) (by decide) (by decide) (by decide) (by decide),
    by decide⟩


/-! ## Runs of operations -/

theorem q_remove_head_inv (h : Heap) (q : queue_t) (a : Ptr) (as : List Ptr)
    (sp : Option (List Nat)) (bufsize : Nat) (hinv : queue_inv h q (a :: as))
    (hsp : ∀ b, sp = some b → 1 ≤ bufsize ∧ bufsize ≤ b.length ∧ bufsize ≤ SIZE_MAX) :
    ∃ h' q' sp', q_remove_head h (some q) sp bufsize = some (h', some q', sp', true) ∧
      queue_inv h' q' as ∧ q'.size = q.size - 1 := by
  obtain ⟨n, hn, hrest, hrun⟩ := q_remove_head_eq h q a as sp bufsize hinv hsp
  obtain ⟨hseg, htail, hsize⟩ := hinv
  have hnd := lseg_nodup hseg
  have haas : a ∉ as := (List.nodup_cons.mp hnd).1
  have hfr : ∀ p, p ≠ a → heap_free h a p = h p := fun p hp => by simp [heap_free, hp]
  have hseg' : lseg (heap_free h a) n.next as none :=
    lseg_frame (fun x hx => hfr x (fun e => haas (e ▸ hx))) hrest
  have hsz2 : q.size - 1 = (as.length : Int) := by
    rw [hsize]; simp
  refine ⟨_, _, _, hrun, ⟨hseg', ?_, hsz2⟩, rfl⟩
  show (if as = [] then n.next else q.tail) = as.getLast?
  by_cases has : as = []
  · subst has
    rw [if_pos rfl]
    exact lseg_nil.mp hrest
  · rw [if_neg has, htail]
    match as, has with
    | b :: bs, _ => exact List.getLast?_cons_cons

theorem q_reverse_inv (h : Heap) (q : queue_t) (l : List Ptr) (fuel : Nat)
    (hinv : queue_inv h q l) (hf : l.length + 1 ≤ fuel) :
    ∃ h' q', q_reverse fuel h (some q) = some (h', some q') ∧
      queue_inv h' q' l.reverse ∧ q'.size = q.size := by
  by_cases hlen : l.length < 2
  · refine ⟨h, q, q_reverse_small h q l fuel hinv hlen, ?_, rfl⟩
    have e : l.reverse = l := by
      match l, hlen with
      | [], _ => rfl
      | [a], _ => rfl
    rw [e]; exact hinv
  · obtain ⟨h1, hrun1, hs1, _, _⟩ := q_reverse_spec h q l fuel hinv hf (by omega)
    refine ⟨h1, _, hrun1, ⟨hs1, ?_, ?_⟩, rfl⟩
    · show q.head = l.reverse.getLast?
      rw [List.getLast?_reverse]; exact lseg_head hinv.1
    · show q.size = (l.reverse.length : Int)
      rw [List.length_reverse]; exact hinv.2.2

theorem run_op_spec (fuel : Nat) (st : Run) (op : Op) (q : queue_t) (l : List Ptr)
    (hq : st.q = some q) (hinv : queue_inv st.heap q l) (hok : op_ok st.heap op = true)
    (hf : l.length + 1 ≤ fuel) :
    ∃ st1 q1 l1, run_op fuel st op = some st1 ∧ st1.q = some q1 ∧
      queue_inv st1.heap q1 l1 ∧ l1.length ≤ l.length + 1 ∧
      q1.size - (st1.inserts - st1.removes) = q.size - (st.inserts - st.removes) := by
  have hfail : ∀ st1 : Run, st1 = ⟨st.heap, some q, st.inserts + 0, st.removes⟩ ∨
      st1 = ⟨st.heap, some q, st.inserts, st.removes + 0⟩ → run_op fuel st op = some st1 →
      ∃ st1 q1 l1, run_op fuel st op = some st1 ∧ st1.q = some q1 ∧
        queue_inv st1.heap q1 l1 ∧ l1.length ≤ l.length + 1 ∧
        q1.size - (st1.inserts - st1.removes) = q.size - (st.inserts - st.removes) := by
    intro st1 hst hrun
    rcases hst with e | e
    · subst e
      refine ⟨_, q, l, hrun, rfl, hinv, by omega, ?_⟩
      show q.size - (st.inserts + 0 - st.removes) = _
      omega
    · subst e
      refine ⟨_, q, l, hrun, rfl, hinv, by omega, ?_⟩
      show q.size - (st.inserts - (st.removes + 0)) = _
      omega
  cases op with
  | insert_head s newh value_ok =>
    cases newh with
    | none => exact hfail _ (Or.inl rfl) (by simp [run_op, hq, q_insert_head])
    | some p =>
      cases value_ok with
      | false => exact hfail _ (Or.inl rfl) (by simp [run_op, hq, q_insert_head])
      | true =>
        have hp : st.heap p = none := by simpa [op_ok] using hok
        obtain ⟨hrun, hinv1, _⟩ := q_insert_head_eq st.heap q l s p hinv hp
        have hrun1 : run_op fuel st (Op.insert_head s (some p) true) =
            some { heap := heap_write st.heap p { value := s, next := q.head },
                   q := some { head := some p, tail := if l = [] then some p else q.tail,
                               size := q.size + 1 },
                   inserts := st.inserts + 1, removes := st.removes } := by
          simp only [run_op, hq, hrun, if_true]
        refine ⟨_, _, p :: l, hrun1, rfl, hinv1, by simp, ?_⟩
        show q.size + 1 - (st.inserts + 1 - st.removes) = _
        omega
  | insert_tail s newt value_ok =>
    cases newt with
    | none => exact hfail _ (Or.inl rfl) (by simp [run_op, hq, q_insert_tail])
    | some p =>
      cases value_ok with
      | false => exact hfail _ (Or.inl rfl) (by simp [run_op, hq, q_insert_tail])
      | true =>
        have hp : st.heap p = none := by simpa [op_ok] using hok
        obtain ⟨h1, hrun, hinv1, _⟩ := q_insert_tail_eq st.heap q l s p hinv hp
        have hrun1 : run_op fuel st (Op.insert_tail s (some p) true) =
            some { heap := h1,
                   q := some { head := if l = [] then some p else q.head, tail := some p,
                               size := q.size + 1 },
                   inserts := st.inserts + 1, removes := st.removes } := by
          simp only [run_op, hq, hrun, if_true]
        refine ⟨_, _, l ++ [p], hrun1, rfl, hinv1, by simp, ?_⟩
        show q.size + 1 - (st.inserts + 1 - st.removes) = _
        omega
  | remove_head sp bufsize =>
    cases l with
    | nil =>
      have hz : q.size = 0 := by simpa using hinv.2.2
      exact hfail _ (Or.inr rfl) (by simp [run_op, hq, q_remove_head, hz])
    | cons a as =>
      have hsp : ∀ b, sp = some b → 1 ≤ bufsize ∧ bufsize ≤ b.length ∧ bufsize ≤ SIZE_MAX := by
        intro b hb
        subst hb
        simpa [op_ok] using hok
      obtain ⟨h1, q1, sp1, hrun, hinv1, hsz⟩ :=
        q_remove_head_inv st.heap q a as sp bufsize hinv hsp
      have hrun1 : run_op fuel st (Op.remove_head sp bufsize) =
          some { heap := h1, q := some q1, inserts := st.inserts,
                 removes := st.removes + 1 } := by
        simp only [run_op, hq, hrun, if_true]
      refine ⟨_, q1, as, hrun1, rfl, hinv1, by simp; omega, ?_⟩
      show q1.size - (st.inserts - (st.removes + 1)) = _
      omega
  | reverse =>
    obtain ⟨h1, q1, hrun, hinv1, hsz⟩ := q_reverse_inv st.heap q l fuel hinv hf
    have hrun1 : run_op fuel st Op.reverse =
        some { heap := h1, q := some q1, inserts := st.inserts, removes := st.removes } := by
      simp only [run_op, hq, hrun]
    refine ⟨_, q1, l.reverse, hrun1, rfl, hinv1, by simp, ?_⟩
    show q1.size - (st.inserts - st.removes) = _
    omega
  | sort =>
    obtain ⟨h1, q1, hrun, hinv1, _, _, hsz⟩ := q_sort_spec st.heap q l fuel hinv hf
    have hrun1 : run_op fuel st Op.sort =
        some { heap := h1, q := some q1, inserts := st.inserts, removes := st.removes } := by
      simp only [run_op, hq, hrun]
    refine ⟨_, q1, _, hrun1, rfl, hinv1, ?_, ?_⟩
    · rw [(List.mergeSort_perm l (ele_le st.heap)).length_eq]; omega
    · show q1.size - (st.inserts - st.removes) = _
      omega

theorem run_ops_spec (fuel : Nat) (ops : List Op) :
    ∀ (st : Run) (q : queue_t) (l : List Ptr), st.q = some q → queue_inv st.heap q l →
      ops_ok fuel st ops = true → l.length + ops.length + 1 ≤ fuel →
      ∃ st1 q1 l1, run_ops fuel st ops = some st1 ∧ st1.q = some q1 ∧
        queue_inv st1.heap q1 l1 ∧
        q1.size - (st1.inserts - st1.removes) = q.size - (st.inserts - st.removes) := by
  induction ops with
  | nil =>
    intro st q l hq hinv _ _
    exact ⟨st, q, l, rfl, hq, hinv, rfl⟩
  | cons op ops ih =>
    intro st q l hq hinv hok hf
    simp only [ops_ok, Bool.and_eq_true] at hok
    obtain ⟨hok1, hok2⟩ := hok
    obtain ⟨st1, q1, l1, hrun, hq1, hinv1, hlen, hsz⟩ :=
      run_op_spec fuel st op q l hq hinv hok1 (by simp at hf; omega)
    rw [hrun] at hok2
    obtain ⟨st2, q2, l2, hrun2, hq2, hinv2, hsz2⟩ :=
      ih st1 q1 l1 hq1 hinv1 hok2 (by simp at hf; omega)
    exact ⟨st2, q2, l2, by simp only [run_ops, hrun, hrun2], hq2, hinv2, hsz2.trans hsz⟩


/-! ## The invariant in the words of the specification -/

theorem nth_next_none (h : Heap) : ∀ k, nth_next k h none = none
  | 0 => rfl
  | _ + 1 => rfl

theorem nth_next_of_lseg {h : Heap} {l : List Ptr} {p : Option Ptr} (hl : lseg h p l none) :
    ∀ i, nth_next i h p = l[i]? := by
  induction l generalizing p with
  | nil =>
    intro i
    rw [lseg_nil] at hl
    subst hl
    simp [nth_next_none]
  | cons a as ih =>
    intro i
    obtain ⟨hp, n, hn, hm⟩ := lseg_cons.mp hl
    subst hp
    cases i with
    | zero => simp [nth_next]
    | succ i =>
      simp only [nth_next, hn, List.getElem?_cons_succ]
      exact ih hm i

theorem lseg_of_nth_next {h : Heap} {t : Ptr} :
    ∀ (k : Nat) (p : Option Ptr), nth_next k h p = some t →
      ∃ l, l.length = k ∧ lseg h p l (some t) := by
  intro k
  induction k with
  | zero =>
    intro p hp
    exact ⟨[], rfl, by simpa [nth_next, lseg] using hp⟩
  | succ k ih =>
    intro p hp
    cases p with
    | none => simp [nth_next] at hp
    | some a =>
      cases hn : h a with
      | none => simp [nth_next, hn] at hp
      | some n =>
        simp only [nth_next, hn] at hp
        obtain ⟨l, hlen, hl⟩ := ih n.next hp
        exact ⟨a :: l, by simp [hlen], lseg_cons.mpr ⟨rfl, n, hn, hl⟩⟩

theorem data_model_inv_of_queue_inv {h : Heap} {q : queue_t} {l : List Ptr}
    (hinv : queue_inv h q l) : data_model_inv h q := by
  obtain ⟨hseg, htail, hsize⟩ := hinv
  have hhead := lseg_head hseg
  have hnth := nth_next_of_lseg hseg
  have hnd := lseg_nodup hseg
  refine ⟨?_, ?_, ?_, ?_, ?_⟩
  · rw [hsize, hhead]
    cases l <;> simp
    omega
  · rw [hhead, htail]
    cases l with
    | nil => simp
    | cons a as =>
      have := getLast?_ne_none (l := a :: as) (by simp)
      simp only [List.head?_cons]
      constructor
      · intro e; cases e
      · intro e; exact absurd e this
  · intro h1
    rw [hsize] at h1
    match l, h1, hhead, htail with
    | [a], _, hhead, htail => rw [hhead, htail]; rfl
    | [], h1, _, _ => simp at h1
    | _ :: _ :: _, h1, _, _ => simp at h1; omega
  · intro hne
    have hl : l ≠ [] := by
      intro e
      subst e
      exact hne hhead
    refine ⟨l.length - 1, ?_, ?_, ?_⟩
    · rw [hsize]
      have : 0 < l.length := List.length_pos.mpr hl
      omega
    · rw [hnth, htail, List.getLast?_eq_getElem?]
    · obtain ⟨t, ht⟩ := Option.ne_none_iff_exists'.mp (getLast?_ne_none hl)
      rw [htail, ht]
      exact lseg_getLast hseg ht
  · intro i j a hij hi hj
    rw [hnth] at hi hj
    have hjl : j < l.length := by
      by_contra hc
      rw [List.getElem?_eq_none (by omega)] at hj
      cases hj
    exact List.nodup_iff_getElem?_ne_getElem?.mp hnd i j hij hjl (hi.trans hj.symm)

theorem queue_inv_of_data_model_inv {h : Heap} {q : queue_t} (hinv : data_model_inv h q) :
    ∃ l, queue_inv h q l := by
  obtain ⟨h1, h2, _, h4, _⟩ := hinv
  by_cases hhead : q.head = none
  · exact ⟨[], by simp [lseg, hhead], by simpa using h2.mp hhead, by simpa using h1.mpr hhead⟩
  · obtain ⟨k, hk, hreach, hlast⟩ := h4 hhead
    cases ht : q.tail with
    | none => rw [ht] at hlast; simp [load_next] at hlast
    | some t =>
      rw [ht] at hreach hlast
      obtain ⟨l, hlen, hl⟩ := lseg_of_nth_next k q.head hreach
      cases hn : h t with
      | none => simp [load_next, hn] at hlast
      | some n =>
        have hnn : n.next = none := by simpa [load_next, hn] using hlast
        refine ⟨l ++ [t], lseg_append.mpr ⟨some t, hl, lseg_cons.mpr ⟨rfl, n, hn, ?_⟩⟩, ?_, ?_⟩
        · rw [hnn]; rfl
        · simp [ht]
        · rw [← hk]; simp [hlen]

/-! ## The claims on runs of operations -/

/-- What `q_size` is after every run other than those with the failing call
of `q_size_run_buffer_zero`: for every finite sequence of operations
(`q_insert_head`, `q_insert_tail`, `q_remove_head`, `q_reverse`, `q_sort`, in
any order, each in a well-formed environment) applied to the queue `q_new` returns, every
operation returns, and `q_size` is then the number of insertions that returned
true minus the number of removals that returned true, which is the number of
elements reachable from `head` and the number of texts read from head to
tail; `q_size` is a function of the queue alone and changes nothing. -/
theorem q_size_counts (fuel : Nat) (h0 : Heap) (ops : List Op)
    (hok : ops_ok fuel (run_start h0) ops = true) (hf : ops.length + 1 ≤ fuel) :
    ∃ st q l vs, run_ops fuel (run_start h0) ops = some st ∧ st.q = some q ∧
      q_size st.q = st.inserts - st.removes ∧
      lseg st.heap q.head l none ∧ q_size st.q = (l.length : Int) ∧
      chain_values (l.length + 1) st.heap q.head = some vs ∧
      q_size st.q = (vs.length : Int) := by
  have hinv0 : queue_inv h0 { head := none, tail := none, size := 0 } [] :=
    ⟨rfl, rfl, rfl⟩
  obtain ⟨st, q, l, hrun, hq, hinv, hsz⟩ :=
    run_ops_spec fuel ops (run_start h0) _ [] rfl hinv0 hok (by simpa using hf)
  have hsz' : q.size = st.inserts - st.removes := by
    have e : q.size - (st.inserts - st.removes) = 0 := hsz
    omega
  refine ⟨st, q, l, _, hrun, hq, ?_, hinv.1, ?_,
    chain_values_of_lseg hinv.1 _ (Nat.le_refl _), ?_⟩
  · rw [hq]; exact hsz'
  · rw [hq]; exact hinv.2.2
  · rw [hq, List.length_map]; exact hinv.2.2

/-- An instance of `q_size_counts`: the run `ex_ops` of seven operations on a
new queue,
of which two insertions and two removals return true, ends with size 0. -/
theorem q_size_counts_witness :
    ops_ok 8 (run_start heap_empty) ex_ops = true ∧
    (∃ st q l vs, run_ops 8 (run_start heap_empty) ex_ops = some st ∧ st.q = some q ∧
      q_size st.q = st.inserts - st.removes ∧
      lseg st.heap q.head l none ∧ q_size st.q = (l.length : Int) ∧
      chain_values (l.length + 1) st.heap q.head = some vs ∧
      q_size st.q = (vs.length : Int)) ∧
    (run_ops 8 (run_start heap_empty) ex_ops).map
      (fun st => (q_size st.q, st.inserts, st.removes)) = some (0, 2, 2) ∧
    (run_ops 8 (run_start heap_empty) (ex_ops.take 4)).map
      (fun st => (q_size st.q, st.inserts, st.removes)) = some (2, 2, 0) ∧
    (run_ops 8 (run_start heap_empty) (ex_ops.take 4)).bind
      (fun st => read_queue 8 (some (st.heap, st.q))) = some [text "a", text "b"] :=
  ⟨by decide, q_size_counts 8 heap_empty ex_ops (by decide) (by decide), by decide, by decide,
    by decide⟩

/-- What holds of the invariant in every call other than the failing one of
`data_model_inv_buffer_zero`: the data-model invariant, in the words of the
specification, holds for the queue `q_new` returns, and every operation
(`q_insert_head`, `q_insert_tail`, `q_remove_head`, `q_reverse`, `q_sort`, in a
well-formed environment, whether it returns true or false) applied to a queue that
satisfies it returns with a queue that satisfies it. -/
theorem data_model_inv_preserved (fuel : Nat) (st : Run) (q : queue_t) (op : Op)
    (hq : st.q = some q) (hinv : data_model_inv st.heap q)
    (hok : op_ok st.heap op = true) (hf : q.size + 1 ≤ (fuel : Int)) :
    (∀ h0, ∃ q0, q_new true = some q0 ∧ data_model_inv h0 q0) ∧
    ∃ st1 q1, run_op fuel st op = some st1 ∧ st1.q = some q1 ∧
      data_model_inv st1.heap q1 := by
  constructor
  · intro h0
    exact ⟨_, rfl, data_model_inv_of_queue_inv (l := []) ⟨rfl, rfl, rfl⟩⟩
  · obtain ⟨l, hl⟩ := queue_inv_of_data_model_inv hinv
    obtain ⟨st1, q1, l1, hrun, hq1, hinv1, _, _⟩ :=
      run_op_spec fuel st op q l hq hl hok (by have := hl.2.2; omega)
    exact ⟨st1, q1, hrun, hq1, data_model_inv_of_queue_inv hinv1⟩


/-- An instance of `data_model_inv_preserved`: the queue c, b, a satisfies the
invariant, and after
`q_sort` the queue satisfies it. -/
theorem data_model_inv_preserved_witness :
    data_model_inv ex_cba.1 ex_cba_queue ∧
    ((∀ h0, ∃ q0, q_new true = some q0 ∧ data_model_inv h0 q0) ∧
    ∃ st1 q1, run_op 4 ⟨ex_cba.1, some ex_cba_queue, 0, 0⟩ Op.sort = some st1 ∧
      st1.q = some q1 ∧ data_model_inv st1.heap q1) ∧
    (run_op 4 ⟨ex_cba.1, some ex_cba_queue, 0, 0⟩ Op.sort).map (fun st => st.q) =
      some (some { head := some 1, tail := some 3, size := 3 }) :=
  ⟨data_model_inv_of_queue_inv (l := [3, 2, 1]) (by decide),
    data_model_inv_preserved 4 ⟨ex_cba.1, some ex_cba_queue, 0, 0⟩ ex_cba_queue Op.sort rfl
      (data_model_inv_of_queue_inv (l := [3, 2, 1]) (by decide)) (by decide) (by decide),
    by decide⟩

/-! ## Head and tail after `q_sort`, and the absent queue -/

theorem lseg_last_unique {h : Heap} {l : List Ptr} {p : Option Ptr} (hl : lseg h p l none)
    {a : Ptr} (ha : a ∈ l) (hn : load_next h (some a) = some none) :
    l.getLast? = some a := by
  obtain ⟨A, B, rfl⟩ := List.append_of_mem ha
  obtain ⟨m, _, hB⟩ := lseg_append.mp hl
  obtain ⟨_, n, hna, hrest⟩ := lseg_cons.mp hB
  have hnn : n.next = none := by simpa [load_next, hna] using hn
  rw [hnn] at hrest
  have hBnil : B = [] := by
    cases B with
    | nil => rfl
    | cons b bs => exact absurd (lseg_cons.mp hrest).1 (by simp)
  subst hBnil
  simp

/-- C16: for every queue satisfying the data-model invariant with at least 2
elements, after `q_sort` (given any fuel above the number of elements) `head`
is the first element of the sorted chain and `tail` is its last element, which
has no `next` and is the only element of the chain without `next`: `tail` is
computed from the sorted chain. -/
theorem q_sort_head_tail (h : Heap) (q : queue_t) (l : List Ptr) (fuel : Nat)
    (hinv : queue_inv h q l) (hf : l.length + 1 ≤ fuel) (hlen : 2 ≤ l.length) :
    ∃ h' q' l', q_sort fuel h (some q) = some (h', some q') ∧
      lseg h' q'.head l' none ∧ l'.Perm l ∧
      List.Pairwise (fun a b => strcasecmp (value_of h' a) (value_of h' b) ≤ 0) l' ∧
      q'.head = l'.head? ∧ q'.tail = l'.getLast? ∧ q'.head ≠ none ∧ q'.tail ≠ none ∧
      load_next h' q'.tail = some none ∧
      (∀ a, a ∈ l' → load_next h' (some a) = some none → q'.tail = some a) ∧
      tail_walk fuel h' q'.head = some q'.tail := by
  obtain ⟨h', q', hrun, hinv', _, hsv, _⟩ := q_sort_spec h q l fuel hinv hf
  have hperm := List.mergeSort_perm l (ele_le h)
  have hne : List.mergeSort l (ele_le h) ≠ [] := by
    intro e
    have := hperm.length_eq
    rw [e] at this
    simp at this
    omega
  have hsorted : List.Pairwise (fun a b => strcasecmp (value_of h' a) (value_of h' b) ≤ 0)
      (List.mergeSort l (ele_le h)) := by
    have hv : value_of h' = value_of h := funext (value_of_eq hsv)
    rw [hv]
    exact (List.sorted_mergeSort (ele_le_trans h) (ele_le_total h) l).imp
      (fun hab => strcasecmp_le_of_ele_le hab)
  obtain ⟨t, ht⟩ := Option.ne_none_iff_exists'.mp (getLast?_ne_none hne)
  have hhead := lseg_head hinv'.1
  refine ⟨h', q', _, hrun, hinv'.1, hperm, hsorted, hhead, hinv'.2.1, ?_, ?_, ?_, ?_, ?_⟩
  · rw [hhead]
    cases hm : List.mergeSort l (ele_le h) with
    | nil => exact absurd hm hne
    | cons a as => simp
  · rw [hinv'.2.1]; exact getLast?_ne_none hne
  · rw [hinv'.2.1, ht]; exact lseg_getLast hinv'.1 ht
  · intro a ha hn
    rw [hinv'.2.1]
    exact lseg_last_unique hinv'.1 ha hn
  · rw [tail_walk_spec _ fuel h' q'.head hinv'.1 (by rw [hperm.length_eq]; exact hf),
      hinv'.2.1]

/-- The witness of C16: in the queue b, c, a (at the addresses 1, 2, 3) the
tail is the element 3; after `q_sort` the chain is a, b, c, the head is the
element 3 and the tail is the element 2. -/
theorem q_sort_head_tail_witness :
    ex_bca = some (ex_bca_heap, some ex_bca_queue, true) ∧
    queue_inv ex_bca_heap ex_bca_queue [1, 2, 3] ∧
    (∃ h' q' l', q_sort 4 ex_bca_heap (some ex_bca_queue) = some (h', some q') ∧
      lseg h' q'.head l' none ∧ l'.Perm [1, 2, 3] ∧
      List.Pairwise (fun a b => strcasecmp (value_of h' a) (value_of h' b) ≤ 0) l' ∧
      q'.head = l'.head? ∧ q'.tail = l'.getLast? ∧ q'.head ≠ none ∧ q'.tail ≠ none ∧
      load_next h' q'.tail = some none ∧
      (∀ a, a ∈ l' → load_next h' (some a) = some none → q'.tail = some a) ∧
      tail_walk 4 h' q'.head = some q'.tail) ∧
    (q_sort 4 ex_bca_heap (some ex_bca_queue)).map (fun r => r.2) =
      some (some { head := some 3, tail := some 2, size := 3 }) ∧
    read_queue 4 (q_sort 4 ex_bca_heap (some ex_bca_queue)) =
      some [text "a", text "b", text "c"] :=
  ⟨rfl, by decide,
    q_sort_head_tail ex_bca_heap ex_bca_queue [1, 2, 3] 4 (by decide) (by decide) (by decide),
    by decide, by decide⟩

/-- C17: on an absent (`NULL`) queue `q_insert_head` and `q_insert_tail` return
false for every text and every result of `malloc`, `q_remove_head` returns
false for every buffer and capacity and leaves the buffer as it was, `q_size`
returns 0, and `q_reverse`, `q_sort` and `q_free` change nothing; each of them
returns (with any fuel) and leaves the heap as it was. -/
theorem absent_queue :
    (∀ h s newh value_ok, q_insert_head h none s newh value_ok = (h, none, false)) ∧
    (∀ h s newt value_ok, q_insert_tail h none s newt value_ok = some (h, none, false)) ∧
    (∀ h sp bufsize, q_remove_head h none sp bufsize = some (h, none, sp, false)) ∧
    q_size none = 0 ∧
    (∀ fuel h, q_reverse fuel h none = some (h, none)) ∧
    (∀ fuel h, q_sort fuel h none = some (h, none)) ∧
    (∀ fuel h, q_free fuel h none = some (h, none)) :=
  ⟨fun _ _ _ _ => rfl, fun _ _ _ _ => rfl, fun _ _ _ => rfl, rfl, fun _ _ => rfl,
    fun _ _ => rfl, fun _ _ => rfl⟩


/-! ## First in, first out; last in, first out -/

theorem q_remove_head_full (h : Heap) (q : queue_t) (a : Ptr) (as : List Ptr)
    (b : List Nat) (hinv : queue_inv h q (a :: as))
    (hb1 : strlen (value_of h a) < b.length) (hb3 : b.length ≤ SIZE_MAX) :
    ∃ h' q', q_remove_head h (some q) (some b) b.length =
        some (h', some q', some (copied (value_of h a) b), true) ∧
      queue_inv h' q' as ∧ (∀ x, x ≠ a → h' x = h x) := by
  have hsp : ∀ b0, some b = some b0 →
      1 ≤ b.length ∧ b.length ≤ b0.length ∧ b.length ≤ SIZE_MAX := by
    intro b0 hb0
    cases hb0
    exact ⟨by omega, Nat.le_refl _, hb3⟩
  obtain ⟨n, hn, _, hrun⟩ := q_remove_head_eq h q a as (some b) b.length hinv hsp
  obtain ⟨h', q', sp', hrun', hinv', _⟩ := q_remove_head_inv h q a as (some b) b.length hinv hsp
  have hv : value_of h a = n.value := by simp [value_of, hn]
  have hk : min (strlen n.value) (b.length - 1) = strlen n.value := by
    rw [hv] at hb1; omega
  have htake : List.take (strlen n.value) n.value = n.value :=
    List.take_of_length_le (Nat.le_refl _)
  rw [hrun] at hrun'
  simp only [Option.some.injEq, Prod.mk.injEq] at hrun'
  obtain ⟨hh, hq', hsp', _⟩ := hrun'
  refine ⟨h', q', ?_, hinv', ?_⟩
  · rw [hrun, hh, hq']
    simp only [Option.map_some', hk, htake, copied, hv]
  · intro x hx
    rw [← hh]
    simp [heap_free, hx]

theorem remove_all_spec (l : List Ptr) :
    ∀ (h : Heap) (q : queue_t) (bufs : List (List Nat)), queue_inv h q l →
      bufs.length = l.length →
      (∀ a ∈ l, ∀ b ∈ bufs, strlen (value_of h a) < b.length ∧ b.length ≤ SIZE_MAX) →
      ∃ h', remove_all h (some q) bufs =
        some (h', some { head := none, tail := none, size := 0 },
          List.zipWith copied (l.map (value_of h)) bufs, true) := by
  induction l with
  | nil =>
    intro h q bufs hinv hlen _
    have hb : bufs = [] := List.length_eq_zero.mp (by simpa using hlen)
    subst hb
    have hq : q = { head := none, tail := none, size := 0 } := by
      obtain ⟨h1, h2, h3⟩ := hinv
      have e1 : q.head = none := lseg_nil.mp h1
      have e2 : q.tail = none := h2
      have e3 : q.size = 0 := by simpa using h3
      cases q
      simp_all
    exact ⟨h, by simp [remove_all, hq]⟩
  | cons a as ih =>
    intro h q bufs hinv hlen hbig
    cases bufs with
    | nil => simp at hlen
    | cons b bs =>
      obtain ⟨hb1, hb3⟩ := hbig a (List.mem_cons_self _ _) b (List.mem_cons_self _ _)
      obtain ⟨h1, q1, hrun, hinv1, hfr⟩ := q_remove_head_full h q a as b hinv hb1 hb3
      have hnd := lseg_nodup hinv.1
      have haas : a ∉ as := (List.nodup_cons.mp hnd).1
      have hvals : ∀ x ∈ as, value_of h1 x = value_of h x := by
        intro x hx
        simp only [value_of, hfr x (fun e => haas (e ▸ hx))]
      obtain ⟨h2, hrun2⟩ := ih h1 q1 bs hinv1 (by simpa using hlen)
        (fun x hx b0 hb0 => by
          rw [hvals x hx]
          exact hbig x (List.mem_cons_of_mem _ hx) b0 (List.mem_cons_of_mem _ hb0))
      refine ⟨h2, ?_⟩
      have hmap : List.map (value_of h1) as = List.map (value_of h) as :=
        List.map_congr_left hvals
      simp only [remove_all, hrun, hrun2, Option.map_some', List.map_cons, List.zipWith_cons_cons,
        hmap, Bool.and_self]

theorem insert_all_tail_spec (sps : List (Text × Ptr)) :
    ∀ (h : Heap) (q : queue_t) (l : List Ptr), queue_inv h q l →
      (sps.map (fun sp => sp.2)).Nodup → (∀ sp ∈ sps, h sp.2 = none) →
      ∃ h' q', insert_all_tail h (some q) sps = some (h', some q', true) ∧
        queue_inv h' q' (l ++ sps.map (fun sp => sp.2)) ∧
        (l ++ sps.map (fun sp => sp.2)).map (value_of h') =
          l.map (value_of h) ++ sps.map (fun sp => sp.1) := by
  induction sps with
  | nil =>
    intro h q l hinv _ _
    exact ⟨h, q, rfl, by simpa using hinv, by simp⟩
  | cons sp rest ih =>
    intro h q l hinv hnd hfresh
    have hp := hfresh sp (List.mem_cons_self _ _)
    obtain ⟨h1, hrun, hinv1, hpl, hh1p, hfr, hval⟩ :=
      q_insert_tail_eq h q l sp.1 sp.2 hinv hp
    simp only [List.map_cons, List.nodup_cons] at hnd
    have hfresh1 : ∀ sp2 ∈ rest, h1 sp2.2 = none := by
      intro sp2 hsp2
      have h0 := hfresh sp2 (List.mem_cons_of_mem _ hsp2)
      have hne : sp2.2 ≠ sp.2 := by
        intro e
        exact hnd.1 (e ▸ List.mem_map_of_mem (fun sp => sp.2) hsp2)
      rw [hfr sp2.2 hne ?_]
      · exact h0
      · intro e
        have hmem : sp2.2 ∈ l := by
          rw [hinv.2.1] at e
          exact List.mem_of_getLast?_eq_some e.symm
        obtain ⟨n, hn⟩ := lseg_alloc hinv.1 hmem
        rw [h0] at hn
        cases hn
    obtain ⟨h2, q2, hrun2, hinv2, hvals2⟩ := ih h1 _ (l ++ [sp.2]) hinv1 hnd.2 hfresh1
    refine ⟨h2, q2, ?_, ?_, ?_⟩
    · simp only [insert_all_tail, hrun, hrun2, Option.map_some', Bool.and_self]
    · simpa using hinv2
    · have e1 : (l ++ [sp.2]).map (value_of h1) = l.map (value_of h) ++ [sp.1] := by
        rw [List.map_append]
        congr 1
        · apply List.map_congr_left
          intro x hx
          exact hval x (fun e => hpl (e ▸ hx))
        · simp [value_of, hh1p]
      rw [e1] at hvals2
      simpa using hvals2

theorem insert_all_head_spec (sps : List (Text × Ptr)) :
    ∀ (h : Heap) (q : queue_t) (l : List Ptr), queue_inv h q l →
      (sps.map (fun sp => sp.2)).Nodup → (∀ sp ∈ sps, h sp.2 = none) →
      ∃ h' q', insert_all_head h (some q) sps = (h', some q', true) ∧
        queue_inv h' q' ((sps.map (fun sp => sp.2)).reverse ++ l) ∧
        ((sps.map (fun sp => sp.2)).reverse ++ l).map (value_of h') =
          (sps.map (fun sp => sp.1)).reverse ++ l.map (value_of h) := by
  induction sps with
  | nil =>
    intro h q l hinv _ _
    exact ⟨h, q, rfl, by simpa using hinv, by simp⟩
  | cons sp rest ih =>
    intro h q l hinv hnd hfresh
    have hp := hfresh sp (List.mem_cons_self _ _)
    obtain ⟨hrun, hinv1, hpl⟩ := q_insert_head_eq h q l sp.1 sp.2 hinv hp
    simp only [List.map_cons, List.nodup_cons] at hnd
    have hfresh1 : ∀ sp2 ∈ rest,
        heap_write h sp.2 { value := sp.1, next := q.head } sp2.2 = none := by
      intro sp2 hsp2
      have hne : sp2.2 ≠ sp.2 := by
        intro e
        exact hnd.1 (e ▸ List.mem_map_of_mem (fun sp => sp.2) hsp2)
      rw [heap_write_other h _ hne]
      exact hfresh sp2 (List.mem_cons_of_mem _ hsp2)
    obtain ⟨h2, q2, hrun2, hinv2, hvals2⟩ := ih _ _ (sp.2 :: l) hinv1 hnd.2 hfresh1
    refine ⟨h2, q2, ?_, ?_, ?_⟩
    · simp only [insert_all_head, hrun, hrun2, Bool.and_self]
    · simpa using hinv2
    · have e1 : (sp.2 :: l).map (value_of (heap_write h sp.2 { value := sp.1, next := q.head }))
          = sp.1 :: l.map (value_of h) := by
        rw [List.map_cons]
        congr 1
        · simp [value_of, heap_write]
        · apply List.map_congr_left
          intro x hx
          have hne : x ≠ sp.2 := fun e => hpl (e ▸ hx)
          simp only [value_of, heap_write_other h _ hne]
      rw [e1] at hvals2
      simpa using hvals2


/-- C18: for every list of texts `ts`, inserted in order into the queue `q_new`
returns (the elements at fresh, distinct addresses `ps`) and removed by as many
calls of `q_remove_head` into buffers longer than every text: after
`q_insert_tail` the removals return true and yield the texts in the order of
insertion, after `q_insert_head` in the reverse order; each buffer then starts
with its text and the terminator, and the queue is empty afterwards. -/
theorem fifo_lifo (h0 : Heap) (ts : List Text) (ps : List Ptr) (bufs : List (List Nat))
    (hps : ps.Nodup) (hlen : ps.length = ts.length) (hfresh : ∀ p ∈ ps, h0 p = none)
    (hbl : bufs.length = ts.length)
    (hbig : ∀ t ∈ ts, ∀ b ∈ bufs, strlen t < b.length ∧ b.length ≤ SIZE_MAX) :
    (∃ h1 q1 h2, insert_all_tail h0 (q_new true) (ts.zip ps) = some (h1, some q1, true) ∧
      remove_all h1 (some q1) bufs =
        some (h2, some { head := none, tail := none, size := 0 },
          List.zipWith copied ts bufs, true)) ∧
    (∃ h1 q1 h2, insert_all_head h0 (q_new true) (ts.zip ps) = (h1, some q1, true) ∧
      remove_all h1 (some q1) bufs =
        some (h2, some { head := none, tail := none, size := 0 },
          List.zipWith copied ts.reverse bufs, true)) ∧
    (∀ t b, (copied t b).take (strlen t + 1) = t ++ [0]) := by
  have hinv0 : queue_inv h0 { head := none, tail := none, size := 0 } [] := ⟨rfl, rfl, rfl⟩
  have hsnd : (ts.zip ps).map (fun sp => sp.2) = ps := List.map_snd_zip _ _ (by omega)
  have hfst : (ts.zip ps).map (fun sp => sp.1) = ts := List.map_fst_zip _ _ (by omega)
  have hfr : ∀ sp ∈ ts.zip ps, h0 sp.2 = none := by
    intro sp hsp
    apply hfresh
    rw [← hsnd]
    exact List.mem_map_of_mem (fun sp => sp.2) hsp
  refine ⟨?_, ?_, ?_⟩
  · obtain ⟨h1, q1, hrun, hinv1, hvals⟩ :=
      insert_all_tail_spec (ts.zip ps) h0 _ [] hinv0 (by rw [hsnd]; exact hps) hfr
    simp only [hsnd, hfst, List.nil_append, List.map_nil] at hinv1 hvals
    obtain ⟨h2, hrem⟩ := remove_all_spec ps h1 q1 bufs hinv1 (by omega)
      (fun a ha b hb => by
        have hmem : value_of h1 a ∈ ts := by
          rw [← hvals]; exact List.mem_map_of_mem _ ha
        exact hbig _ hmem b hb)
    rw [hvals] at hrem
    exact ⟨h1, q1, h2, hrun, hrem⟩
  · obtain ⟨h1, q1, hrun, hinv1, hvals⟩ :=
      insert_all_head_spec (ts.zip ps) h0 _ [] hinv0 (by rw [hsnd]; exact hps) hfr
    simp only [hsnd, hfst, List.append_nil, List.map_nil] at hinv1 hvals
    obtain ⟨h2, hrem⟩ := remove_all_spec ps.reverse h1 q1 bufs hinv1 (by simp; omega)
      (fun a ha b hb => by
        have hmem : value_of h1 a ∈ ts.reverse := by
          rw [← hvals]; exact List.mem_map_of_mem _ ha
        exact hbig _ (List.mem_reverse.mp hmem) b hb)
    rw [hvals] at hrem
    exact ⟨h1, q1, h2, hrun, hrem⟩
  · intro t b
    have : copied t b = (t ++ [0]) ++ b.drop (strlen t + 1) := by simp [copied]
    rw [this, List.take_left' (by simp [strlen])]

/-- The witness of C18: "a", "b", "c" inserted at the addresses 1, 2, 3 and
removed into three buffers of 4 bytes holding "xxxx". -/
theorem fifo_lifo_witness :
    ((∃ h1 q1 h2, insert_all_tail heap_empty (q_new true)
        ([text "a", text "b", text "c"].zip [1, 2, 3]) = some (h1, some q1, true) ∧
      remove_all h1 (some q1) [text "xxxx", text "xxxx", text "xxxx"] =
        some (h2, some { head := none, tail := none, size := 0 },
          List.zipWith copied [text "a", text "b", text "c"]
            [text "xxxx", text "xxxx", text "xxxx"], true)) ∧
    (∃ h1 q1 h2, insert_all_head heap_empty (q_new true)
        ([text "a", text "b", text "c"].zip [1, 2, 3]) = (h1, some q1, true) ∧
      remove_all h1 (some q1) [text "xxxx", text "xxxx", text "xxxx"] =
        some (h2, some { head := none, tail := none, size := 0 },
          List.zipWith copied [text "a", text "b", text "c"].reverse
            [text "xxxx", text "xxxx", text "xxxx"], true)) ∧
    (∀ t b, (copied t b).take (strlen t + 1) = t ++ [0])) ∧
    ((insert_all_tail heap_empty (q_new true)
        ([text "a", text "b", text "c"].zip [1, 2, 3])).bind
      (fun r => remove_all r.1 r.2.1 [text "xxxx", text "xxxx", text "xxxx"])).map
      (fun r => r.2) =
      some (some { head := none, tail := none, size := 0 },
        [text "a" ++ [0] ++ text "xx", text "b" ++ [0] ++ text "xx",
          text "c" ++ [0] ++ text "xx"], true) ∧
    (remove_all
        (insert_all_head heap_empty (q_new true)
          ([text "a", text "b", text "c"].zip [1, 2, 3])).1
        (insert_all_head heap_empty (q_new true)
          ([text "a", text "b", text "c"].zip [1, 2, 3])).2.1
        [text "xxxx", text "xxxx", text "xxxx"]).map (fun r => r.2) =
      some (some { head := none, tail := none, size := 0 },
        [text "c" ++ [0] ++ text "xx", text "b" ++ [0] ++ text "xx",
          text "a" ++ [0] ++ text "xx"], true) :=
  ⟨fifo_lifo heap_empty [text "a", text "b", text "c"] [1, 2, 3]
      [text "xxxx", text "xxxx", text "xxxx"] (by decide) (by decide)
      (fun p _ => rfl) (by decide) (by decide),
    by decide, by decide⟩


/-! ## The claims on `merge` and on the split of `MergeSortList` -/

theorem pairwise_of_chain' (h : Heap) (L : List Ptr)
    (hc : List.Chain' (fun a b => strcasecmp (value_of h a) (value_of h b) ≤ 0) L) :
    List.Pairwise (fun a b => ele_le h a b = true) L := by
  haveI : IsTrans Ptr (fun a b => ele_le h a b = true) := ⟨ele_le_trans h⟩
  apply List.chain'_iff_pairwise.mp
  refine hc.imp ?_
  intro a b hab
  simp only [ele_le, decide_eq_true_eq]
  omega

theorem pair_sublist_merge {α : Type} (le : α → α → Bool)
    (htrans : ∀ a b c, le a b = true → le b c = true → le a c = true) :
    ∀ (X : List α), List.Pairwise (fun a b => le a b = true) X →
      ∀ (Y : List α) (a : α), a ∈ X → ∀ (b : α), b ∈ Y → le a b = true →
        List.Sublist [a, b] (List.merge X Y le) := by
  intro X
  induction X with
  | nil => intro _ Y a ha; simp at ha
  | cons x xs ihx =>
    intro hpw Y
    induction Y with
    | nil => intro a _ b hb; simp at hb
    | cons y ys ihy =>
      intro a ha b hb hab
      rw [List.cons_merge_cons]
      by_cases hxy : le x y = true
      · rw [if_pos hxy]
        rcases List.mem_cons.mp ha with rfl | ha'
        · exact List.Sublist.cons₂ _
            (List.singleton_sublist.mpr (List.mem_merge.mpr (Or.inr hb)))
        · exact List.Sublist.cons _ (ihx (List.Pairwise.of_cons hpw) (y :: ys) a ha' b hb hab)
      · rw [if_neg hxy]
        rcases List.mem_cons.mp hb with rfl | hb'
        · exfalso
          rcases List.mem_cons.mp ha with rfl | ha'
          · exact hxy hab
          · exact hxy (htrans _ _ _ (List.rel_of_pairwise_cons hpw ha') hab)
        · exact List.Sublist.cons _ (ihy a ha b hb' hab)

/-- C19: for every two non-empty chains `l1` and `l2` that end in `NULL` (two
chains: no element belongs to both) and are each in ascending order under
`strcasecmp`, `merge` returns
(with fuel for the elements) a chain that is in ascending order and is a
permutation of the elements of `l1` followed by those of `l2`; it is the list
built by repeatedly taking the front element of `l1` when it compares `<= 0`
with the front element of `l2` and the front element of `l2` otherwise, so
that on a tie the element of `l1` comes before the element of `l2`; no text is
changed. -/
theorem merge_sorted (fuel : Nat) (h : Heap) (l1 l2 : Option Ptr) (L1 L2 : List Ptr)
    (hL1 : lseg h l1 L1 none) (hL2 : lseg h l2 L2 none) (h1 : L1 ≠ []) (h2 : L2 ≠ [])
    (hdisj : ∀ a, a ∈ L1 → a ∉ L2)
    (hs1 : List.Chain' (fun a b => strcasecmp (value_of h a) (value_of h b) ≤ 0) L1)
    (hs2 : List.Chain' (fun a b => strcasecmp (value_of h a) (value_of h b) ≤ 0) L2)
    (hf : L1.length + L2.length ≤ fuel) :
    ∃ h' r L, merge fuel h l1 l2 = some (h', r) ∧ lseg h' r L none ∧ same_values h h' ∧
      L.Perm (L1 ++ L2) ∧
      List.Pairwise (fun a b => strcasecmp (value_of h' a) (value_of h' b) ≤ 0) L ∧
      List.Chain' (fun a b => strcasecmp (value_of h' a) (value_of h' b) ≤ 0) L ∧
      L = List.merge L1 L2 (fun a b => decide (strcasecmp (value_of h a) (value_of h b) < 1)) ∧
      (∀ a, a ∈ L1 → ∀ b, b ∈ L2 → strcasecmp (value_of h a) (value_of h b) = 0 →
        List.Sublist [a, b] L) ∧
      chain_values (fuel + 1) h' r = some (L.map (value_of h)) := by
  have hnd : (L1 ++ L2).Nodup :=
    List.nodup_append.mpr ⟨lseg_nodup hL1, lseg_nodup hL2, fun a ha hb => hdisj a ha hb⟩
  obtain ⟨h', r, hrun, hseg, _, hsv⟩ := merge_spec fuel h l1 l2 L1 L2 hL1 hL2 h1 h2 hnd hf
  have hp1 := pairwise_of_chain' h L1 hs1
  have hp2 := pairwise_of_chain' h L2 hs2
  have hperm : (List.merge L1 L2 (ele_le h)).Perm (L1 ++ L2) :=
    List.merge_perm_append (ele_le h)
  have hsorted : List.Pairwise (fun a b => strcasecmp (value_of h' a) (value_of h' b) ≤ 0)
      (List.merge L1 L2 (ele_le h)) := by
    have hv : value_of h' = value_of h := funext (value_of_eq hsv)
    rw [hv]
    exact (List.sorted_merge (ele_le_trans h) (ele_le_total h) L1 L2 hp1 hp2).imp
      (fun hab => strcasecmp_le_of_ele_le hab)
  refine ⟨h', r, _, hrun, hseg, hsv, hperm, hsorted, hsorted.chain', rfl, ?_, ?_⟩
  · intro a ha b hb he
    exact pair_sublist_merge (ele_le h) (ele_le_trans h) L1 hp1 L2 a ha b hb
      (by simp only [ele_le, decide_eq_true_eq]; omega)
  · rw [chain_values_of_lseg hseg _ (by rw [hperm.length_eq, List.length_append]; omega),
      map_value_of_eq hsv]

/-- The witness of C19: the chains a, c and A, b merge into a, A, b, c, the
"a" of the first chain before the "A" of the second. -/
theorem merge_sorted_witness :
    lseg ex_two_chains (some 1) [1, 2] none ∧ lseg ex_two_chains (some 3) [3, 4] none ∧
    (∃ h' r L, merge 4 ex_two_chains (some 1) (some 3) = some (h', r) ∧ lseg h' r L none ∧
      same_values ex_two_chains h' ∧ L.Perm ([1, 2] ++ [3, 4]) ∧
      List.Pairwise (fun a b => strcasecmp (value_of h' a) (value_of h' b) ≤ 0) L ∧
      List.Chain' (fun a b => strcasecmp (value_of h' a) (value_of h' b) ≤ 0) L ∧
      L = List.merge [1, 2] [3, 4]
        (fun a b => decide
          (strcasecmp (value_of ex_two_chains a) (value_of ex_two_chains b) < 1)) ∧
      (∀ a, a ∈ [1, 2] → ∀ b, b ∈ [3, 4] →
        strcasecmp (value_of ex_two_chains a) (value_of ex_two_chains b) = 0 →
        List.Sublist [a, b] L) ∧
      chain_values (4 + 1) h' r = some (L.map (value_of ex_two_chains))) ∧
    (merge 4 ex_two_chains (some 1) (some 3)).bind (fun r => chain_values 5 r.1 r.2) =
      some [text "a", text "A", text "b", text "c"] ∧
    (merge 4 ex_two_chains (some 3) (some 1)).bind (fun r => chain_values 5 r.1 r.2) =
      some [text "A", text "a", text "b", text "c"] :=
  ⟨by decide, by decide,
    merge_sorted 4 ex_two_chains (some 1) (some 3) [1, 2] [3, 4] (by decide) (by decide)
      (by decide) (by decide) (by decide) (List.chain'_pair.mpr (by decide))
      (List.chain'_pair.mpr (by decide)) (by decide),
    by decide, by decide⟩


theorem split_spec (fuel : Nat) (h : Heap) (a : Ptr) (L : List Ptr)
    (hL : lseg h (some a) L none) (hlen : 2 ≤ L.length) (hf : L.length ≤ fuel) :
    ∃ b c nc, load_next h (some a) = some (some b) ∧
      split_walk fuel h (some a) (some b) = some (some c) ∧ h c = some nc ∧
      lseg (heap_write h c { nc with next := none }) (some a)
        (L.take ((L.length + 1) / 2)) none ∧
      lseg (heap_write h c { nc with next := none }) nc.next
        (L.drop ((L.length + 1) / 2)) none := by
  have hnd := lseg_nodup hL
  match L, hL, hlen, hf, hnd with
  | a0 :: b :: xs, hL, _, hf, hnd =>
    obtain ⟨ha, na, hna, hLt⟩ := lseg_cons.mp hL
    have ha0 : a0 = a := (Option.some.inj ha).symm
    subst ha0
    obtain ⟨hb, nb, hnb, hLtt⟩ := lseg_cons.mp hLt
    obtain ⟨s, hwalk, hs⟩ := split_walk_spec fuel h (some a0) (some b) (a0 :: b :: xs) (b :: xs)
      hL (hb ▸ hLt) (by simp; omega) (by simp at hf ⊢; omega)
    set L := a0 :: b :: xs with hLdef
    set k := (b :: xs).length / 2 with hk
    have hkL : k < L.length := by simp [hk, hLdef]; omega
    have hk1 : k + 1 = (L.length + 1) / 2 := by simp [hk, hLdef]; omega
    obtain ⟨c, rest, hdrop⟩ : ∃ c rest, L.drop k = c :: rest := by
      cases hd : L.drop k with
      | nil =>
        have := congrArg List.length hd
        simp at this; omega
      | cons c rest => exact ⟨c, rest, rfl⟩
    rw [hdrop] at hs
    obtain ⟨hsc, nc, hnc, hrest⟩ := lseg_cons.mp hs
    subst hsc
    have hsplit : L = L.take k ++ c :: rest := by
      rw [← hdrop, List.take_append_drop]
    have hnd' : (L.take k ++ c :: rest).Nodup := hsplit ▸ hnd
    have hc1 : c ∉ L.take k := by
      intro hc
      exact (List.nodup_append.mp hnd').2.2 hc (List.mem_cons_self _ _)
    have hc2 : c ∉ rest := by
      have := (List.nodup_append.mp hnd').2.1
      exact (List.nodup_cons.mp this).1
    have hL' : lseg h (some a0) (L.take k ++ c :: rest) none := hsplit ▸ hL
    obtain ⟨m, hfront, hback⟩ := lseg_append.mp hL'
    have hm : m = some c := (lseg_cons.mp hback).1
    subst hm
    obtain ⟨hL1def, hL2def⟩ := take_succ_of_drop L k c rest hdrop
    refine ⟨b, c, nc, ?_, hwalk, hnc, ?_, ?_⟩
    · rw [load_next_spec hna, hb]
    · rw [← hk1, hL1def, lseg_append]
      refine ⟨some c, lseg_frame (fun x hx => heap_write_other h _
        (fun e => hc1 (e ▸ hx))) hfront, ?_⟩
      rw [lseg_cons]
      exact ⟨rfl, _, heap_write_same h c _, rfl⟩
    · rw [← hk1, hL2def]
      exact lseg_frame (fun x hx => heap_write_other h _ (fun e => hc2 (e ▸ hx))) hrest

theorem merge_null (fuel : Nat) (h : Heap) (p : Option Ptr) :
    merge fuel h none p = none ∧ merge fuel h p none = none := by
  constructor
  · simp [merge, load_value]
  · cases hv : load_value h p <;> simp [merge, load_value, hv]

/-- C20: for every chain ending in `NULL` and every fuel `f` not below its
number `n` of elements, `MergeSortList` returns. When `n >= 2`, the walk of
`slow` and `fast` stops, and after `slow->next = NULL` the chain from `head` is
the first `(n + 1) / 2` elements and the chain from `mid` the other `n / 2`
ones, both non-empty and shorter than `n`; the two recursive calls return
non-`NULL` pointers, with which `merge` is called. A `NULL` argument would
leave `merge`, which reads `l1->value` and `l2->value`, without a result. -/
theorem split_halves (f : Nat) (h : Heap) (head : Option Ptr) (L : List Ptr)
    (hL : lseg h head L none) (hf : L.length ≤ f) :
    (∃ h' r, MergeSortList (f + 1) h head = some (h', r) ∧
      lseg h' r (List.mergeSort L (ele_le h)) none) ∧
    (2 ≤ L.length → ∃ fst slow mid h1, load_next h head = some (some fst) ∧
      split_walk f h head (some fst) = some (some slow) ∧
      load_next h (some slow) = some (some mid) ∧
      store_next h (some slow) none = some h1 ∧
      lseg h1 head (L.take ((L.length + 1) / 2)) none ∧
      lseg h1 (some mid) (L.drop ((L.length + 1) / 2)) none ∧
      (L.take ((L.length + 1) / 2)).length = (L.length + 1) / 2 ∧
      (L.drop ((L.length + 1) / 2)).length = L.length / 2 ∧
      0 < (L.length + 1) / 2 ∧ (L.length + 1) / 2 < L.length ∧
      0 < L.length / 2 ∧ L.length / 2 < L.length ∧
      ∃ h2 x h3 y, MergeSortList f h1 head = some (h2, some x) ∧
        MergeSortList f h2 (some mid) = some (h3, some y) ∧
        MergeSortList (f + 1) h head = merge f h3 (some x) (some y)) ∧
    (∀ fuel hh p, merge fuel hh none p = none ∧ merge fuel hh p none = none) := by
  refine ⟨?_, ?_, fun fuel hh p => merge_null fuel hh p⟩
  · obtain ⟨h', r, hrun, hseg, _, _⟩ := MergeSortList_spec (f + 1) h head L hL (by omega)
    exact ⟨h', r, hrun, hseg⟩
  · intro hlen
    obtain ⟨a, ha⟩ : ∃ a, head = some a := by
      rw [lseg_head hL]
      match L, hlen with
      | a :: _, _ => exact ⟨a, rfl⟩
    subst ha
    obtain ⟨b, c, nc, hnext, hwalk, hnc, hs1, hs2⟩ := split_spec f h a L hL hlen hf
    have hlen1 : (L.take ((L.length + 1) / 2)).length = (L.length + 1) / 2 := by
      rw [List.length_take]; omega
    have hlen2 : (L.drop ((L.length + 1) / 2)).length = L.length / 2 := by
      rw [List.length_drop]; omega
    have hnd := lseg_nodup hL
    have hdisj : ∀ x, x ∈ L.take ((L.length + 1) / 2) → x ∉ L.drop ((L.length + 1) / 2) := by
      intro x hx1 hx2
      have hnd' : (L.take ((L.length + 1) / 2) ++ L.drop ((L.length + 1) / 2)).Nodup := by
        rw [List.take_append_drop]; exact hnd
      exact (List.nodup_append.mp hnd').2.2 hx1 hx2
    obtain ⟨mid, hmid⟩ : ∃ mid, nc.next = some mid := by
      rw [lseg_head hs2]
      cases hd : L.drop ((L.length + 1) / 2) with
      | nil =>
        rw [hd] at hlen2
        simp at hlen2; omega
      | cons m _ => exact ⟨m, rfl⟩
    rw [hmid] at hs2
    obtain ⟨h2, r1, hrun1, hs1', hfr1, _⟩ :=
      MergeSortList_spec f _ (some a) _ hs1 (by omega)
    have hs2' : lseg h2 (some mid) (L.drop ((L.length + 1) / 2)) none :=
      lseg_frame (fun x hx => hfr1 x (fun hx1 => hdisj x hx1 hx)) hs2
    obtain ⟨h3, r2, hrun2, hs2'', _, _⟩ :=
      MergeSortList_spec f h2 (some mid) _ hs2' (by omega)
    have hsome : ∀ {hh : Heap} {r : Option Ptr} {M : List Ptr} (le : Ptr → Ptr → Bool),
        lseg hh r (List.mergeSort M le) none → 0 < M.length → ∃ x, r = some x := by
      intro hh r M le hseg hpos
      rw [lseg_head hseg]
      cases hm : List.mergeSort M le with
      | nil =>
        have := (List.mergeSort_perm M le).length_eq
        rw [hm] at this
        simp at this; omega
      | cons x _ => exact ⟨x, rfl⟩
    obtain ⟨x, hx⟩ := hsome _ hs1' (by omega)
    obtain ⟨y, hy⟩ := hsome _ hs2'' (by omega)
    subst hx; subst hy
    refine ⟨b, c, mid, _, hnext, hwalk, by rw [load_next_spec hnc, hmid],
      store_next_spec hnc none, hs1, hs2, hlen1, hlen2, by omega, by omega, by omega,
      by omega, h2, x, h3, y, hrun1, hrun2, ?_⟩
    simp only [MergeSortList, hnext, hwalk, load_next_spec hnc, hmid, store_next_spec hnc,
      hrun1, hrun2]

/-- The witness of C20: the queue b, c, a of 3 elements splits into the 2
elements b, c and the 1 element a. -/
theorem split_halves_witness :
    lseg ex_bca_heap (some 1) [1, 2, 3] none ∧
    ((∃ h' r, MergeSortList (3 + 1) ex_bca_heap (some 1) = some (h', r) ∧
      lseg h' r (List.mergeSort [1, 2, 3] (ele_le ex_bca_heap)) none) ∧
    (2 ≤ [1, 2, 3].length → ∃ fst slow mid h1,
      load_next ex_bca_heap (some 1) = some (some fst) ∧
      split_walk 3 ex_bca_heap (some 1) (some fst) = some (some slow) ∧
      load_next ex_bca_heap (some slow) = some (some mid) ∧
      store_next ex_bca_heap (some slow) none = some h1 ∧
      lseg h1 (some 1) ([1, 2, 3].take (([1, 2, 3].length + 1) / 2)) none ∧
      lseg h1 (some mid) ([1, 2, 3].drop (([1, 2, 3].length + 1) / 2)) none ∧
      ([1, 2, 3].take (([1, 2, 3].length + 1) / 2)).length = ([1, 2, 3].length + 1) / 2 ∧
      ([1, 2, 3].drop (([1, 2, 3].length + 1) / 2)).length = [1, 2, 3].length / 2 ∧
      0 < ([1, 2, 3].length + 1) / 2 ∧ ([1, 2, 3].length + 1) / 2 < [1, 2, 3].length ∧
      0 < [1, 2, 3].length / 2 ∧ [1, 2, 3].length / 2 < [1, 2, 3].length ∧
      ∃ h2 x h3 y, MergeSortList 3 h1 (some 1) = some (h2, some x) ∧
        MergeSortList 3 h2 (some mid) = some (h3, some y) ∧
        MergeSortList (3 + 1) ex_bca_heap (some 1) = merge 3 h3 (some x) (some y)) ∧
    (∀ fuel hh p, merge fuel hh none p = none ∧ merge fuel hh p none = none)) ∧
    split_walk 3 ex_bca_heap (some 1) (some 2) = some (some 2) ∧
    (store_next ex_bca_heap (some 2) none).bind (fun h1 => chain_values 4 h1 (some 1)) =
      some [text "b", text "c"] ∧
    (store_next ex_bca_heap (some 2) none).bind (fun h1 => chain_values 4 h1 (some 3)) =
      some [text "a"] :=
  ⟨by decide, split_halves 3 ex_bca_heap (some 1) [1, 2, 3] (by decide) (by decide),
    by decide, by decide, by decide⟩


/-! ## The calls of `q_remove_head` with a buffer and `bufsize == 0` -/

/-- C9, the code at the failing input: the queue c, b, a is non-empty and
satisfies the data-model invariant; `q_remove_head` called on it with a buffer
of 4 bytes and `bufsize == 0` passes the length `SIZE_MAX` to `memcpy` and has
no defined result, so it does not return true with the head removed. The
same call with `bufsize == 1`, or without a buffer, returns true and leaves
b, a. -/
theorem q_remove_head_buffer_zero :
    queue_inv ex_cba.1 ex_cba_queue [3, 2, 1] ∧
    remove_copy_len (strlen (value_of ex_cba.1 3)) 0 = SIZE_MAX ∧
    memcpy (text "xxxx") (c_str (value_of ex_cba.1 3)) SIZE_MAX = none ∧
    q_remove_head ex_cba.1 (some ex_cba_queue) (some (text "xxxx")) 0 = none ∧
    (q_remove_head ex_cba.1 (some ex_cba_queue) (some (text "xxxx")) 1).map
      (fun r => (r.2.1, r.2.2.2)) =
      some (some { head := some 2, tail := some 1, size := 2 }, true) ∧
    (q_remove_head ex_cba.1 (some ex_cba_queue) none 0).map (fun r => (r.2.1, r.2.2.2)) =
      some (some { head := some 2, tail := some 1, size := 2 }, true) := by
  refine ⟨by decide, by decide, by decide, rfl, by decide, by decide⟩

/-- C14, the code at the failing input: on a new queue, after "a" was inserted
(`q_size` is 1, with 1 insertion and 0 removals), the call of `q_remove_head`
with a buffer of 4 bytes and `bufsize == 0` has no defined result, so the run
`ex_ops_zero` ends without a queue of which `q_size` could be taken. -/
theorem q_size_run_buffer_zero :
    (run_ops 3 (run_start heap_empty) (ex_ops_zero.take 1)).map
      (fun st => (q_size st.q, st.inserts, st.removes)) = some (1, 1, 0) ∧
    ex_ops_zero.drop 1 = [Op.remove_head (some (text "xxxx")) 0] ∧
    run_ops 3 (run_start heap_empty) ex_ops_zero = none := by
  refine ⟨by decide, rfl, rfl⟩

/-- C15, the code at the failing input: the queue holding "a" satisfies the
invariant in the words of the specification; the operation `q_remove_head`
with a buffer of 4 bytes and `bufsize == 0` has no defined result on it, so it
does not return with a queue that satisfies the invariant. -/
theorem data_model_inv_buffer_zero :
    ex_one.2 = (some ex_one_queue, true) ∧
    data_model_inv ex_one.1 ex_one_queue ∧
    run_op 2 ⟨ex_one.1, some ex_one_queue, 1, 0⟩ (Op.remove_head (some (text "xxxx")) 0) = none :=
  ⟨by decide, data_model_inv_of_queue_inv (l := [1]) (by decide), rfl⟩

end Queue
